import Mathlib

/-!
Shallow embedding of the juice procedural world-generation engine
(heightmap, sea / river / biome / city / road layers, tile classifier)
and proofs checking the specification's claims against it.

Conventions: grids are functions of game coordinates `(x, y)`; numpy's
`matrix[y, x]` access is absorbed into the argument order.  Python floats
are modelled by exact rationals, `float("inf")` by `⊤ : WithTop ℚ`; where
the binary64 rounding of an operation is observable (the level stretch of
the heightmap) the rounding to 53 significant bits is modelled
explicitly.
-/

namespace Juice

/-- Game-coordinate cell `(x, y)`. -/
abbrev Cell := Nat × Nat

/-- Grid of natural-valued cells (labels, heights, ids). -/
abbrev Grid := Nat → Nat → Nat

/-- Pointwise update of a grid at one cell. -/
def mset (m : Grid) (x y v : Nat) : Grid :=
  fun a b => if a = x ∧ b = y then v else m a b

/-- Edge (4-)neighbors of `(x, y)` inside a `dim × dim` matrix, in the
source order of `GameFieldLayer.foreach_matrix_edge_neighbor`:
`(x, y-1), (x+1, y), (x, y+1), (x-1, y)`, invalid coordinates excluded. -/
def edgeNeighbors (dim x y : Nat) : List Cell :=
  [((x : Int), (y : Int) - 1), ((x : Int) + 1, (y : Int)),
   ((x : Int), (y : Int) + 1), ((x : Int) - 1, (y : Int))].filterMap
    (fun c =>
      if 0 ≤ c.1 ∧ 0 ≤ c.2 ∧ c.1 < (dim : Int) ∧ c.2 < (dim : Int) then
        some (c.1.toNat, c.2.toNat)
      else none)

/-! Terrain constants from `juice/terrain.py`. -/

def MOUNTAIN_THRESHOLD : Nat := 192
def SEA_THRESHOLD : Nat := 96
def MIN_SEA_SIZE : Nat := 32
def RIVER_DENSITY : ℚ := 1 / 40
def MIN_RIVER_SOURCES : Nat := 4
def BIOME_DESERT : Nat := 1
def BIOME_FOREST : Nat := 2
def CITY_CLOSENESS_FACTOR : Nat := 20
def MAX_CITY_DISALLOW_RADIUS : Nat := 40
def MP_PENALTY_DESERT : ℚ := -1 / 5
def MP_PENALTY_FOREST : ℚ := 1 / 2
def MP_PENALTY_ELEV : ℚ := 2 / 25
def MP_BRIDGE : ℚ := 5
def MP_ROAD : ℚ := 1 / 5

/-! Tile-type ids of `TileClassifierLine` used by the road weight map. -/

def TT_STRAIGHT_NS : Nat := 21
def TT_STRAIGHT_WE : Nat := 22

/-- Movement-point weight map computed by `RoadLayer._init_weightmap`:
sea is impassable, biomes add penalties, rivers are impassable except
where the line classification is a straight section (a bridge). -/
def initWeightmap (sea bio rcx : Grid) (x y : Nat) : WithTop ℚ :=
  let wm : WithTop ℚ := if sea x y ≠ 0 then ⊤ else ((1 : ℚ) : WithTop ℚ)
  let wm := if bio x y = BIOME_DESERT then wm + (MP_PENALTY_DESERT : ℚ) else wm
  let wm := if bio x y = BIOME_FOREST then wm + (MP_PENALTY_FOREST : ℚ) else wm
  let wm := if rcx x y ≠ 0 then ⊤ else wm
  if rcx x y = TT_STRAIGHT_WE ∨ rcx x y = TT_STRAIGHT_NS then
    ((MP_BRIDGE : ℚ) : WithTop ℚ)
  else wm

/-- C2: the weight field is `⊤` on sea cells, `⊤` on classified river
cells except straight sections where it is `MP_BRIDGE`, and elsewhere the
`1.0` baseline plus the desert or forest penalty.  The hypothesis that no
sea cell carries a river classification is the pipeline invariant
established by `DeltaLayer` removing river cells overlapping the sea. -/
theorem initWeightmap_spec (sea bio rcx : Grid)
    (hdisj : ∀ x y, sea x y ≠ 0 → rcx x y = 0) (x y : Nat) :
    (sea x y ≠ 0 → initWeightmap sea bio rcx x y = ⊤) ∧
    (rcx x y ≠ 0 →
      ((rcx x y = TT_STRAIGHT_NS ∨ rcx x y = TT_STRAIGHT_WE) →
        initWeightmap sea bio rcx x y = ((MP_BRIDGE : ℚ) : WithTop ℚ)) ∧
      (¬(rcx x y = TT_STRAIGHT_NS ∨ rcx x y = TT_STRAIGHT_WE) →
        initWeightmap sea bio rcx x y = ⊤)) ∧
    (sea x y = 0 → rcx x y = 0 →
      initWeightmap sea bio rcx x y =
        (((1 : ℚ)
          + (if bio x y = BIOME_DESERT then MP_PENALTY_DESERT else 0)
          + (if bio x y = BIOME_FOREST then MP_PENALTY_FOREST else 0) : ℚ) :
            WithTop ℚ)) := by
  refine ⟨?_, ?_, ?_⟩
  · intro hsea
    have hr : rcx x y = 0 := hdisj x y hsea
    simp only [initWeightmap, hsea, hr]
    norm_num [TT_STRAIGHT_WE, TT_STRAIGHT_NS]
    split <;> split <;> simp [top_add]
  · intro hrcx
    constructor
    · intro hst
      have hst' : rcx x y = TT_STRAIGHT_WE ∨ rcx x y = TT_STRAIGHT_NS :=
        hst.symm
      simp only [initWeightmap, hst', if_pos]
    · intro hst
      have hst' : ¬(rcx x y = TT_STRAIGHT_WE ∨ rcx x y = TT_STRAIGHT_NS) :=
        fun h => hst h.symm
      simp only [initWeightmap, hst', if_false, hrcx, if_pos, ne_eq,
        not_false_eq_true]
  · intro hsea hrcx
    simp only [initWeightmap, hsea, hrcx]
    norm_num [TT_STRAIGHT_WE, TT_STRAIGHT_NS]
    split <;> split <;>
      simp_all [WithTop.coe_add, add_zero, WithTop.coe_one]

/-- Witness for `initWeightmap_spec` at a concrete configuration. -/
theorem initWeightmap_spec_witness :
    initWeightmap (fun _ _ => 1) (fun _ _ => 0) (fun _ _ => 0) 0 0 = ⊤ :=
  (initWeightmap_spec (fun _ _ => 1) (fun _ _ => 0) (fun _ _ => 0)
    (fun _ _ _ => rfl) 0 0).1 (by decide)

/-! Tile classifier (`juice/tileclassifier.py`). -/

/-- Ternary 3×3 template (`None` entries match anything). -/
abbrev TMat := Fin 3 → Fin 3 → Option Bool

/-- Rotation `np.fliplr(np.transpose(m))`: `rot[r][c] = m[2-c][r]`
(90° clockwise in row-major coordinates). -/
def rotateT (a : TMat) : TMat := fun r c => a c.rev r

/-- Ternary comparison `_is_ternary_matrix_equal`: every entry is either
a don't-care or equal to the boolean neighborhood. -/
def matchTernary (a : TMat) (b : Fin 3 → Fin 3 → Bool) : Bool :=
  decide (∀ r c, a r c = none ∨ a r c = some (b r c))

/-- Result of a `_classify_tile` call for one tilespec: a boolean that
only sets the removal mask, a tile-type id assignment, or no effect. -/
inductive SpecResult where
  | boolRes (b : Bool)
  | ttRes (tt : Nat)
  | noRes
deriving DecidableEq

/-- Sum type for tilespecs: a ternary template with an initial tile type
and a rotation count (`None` meaning 4, via Python's `or 4`), or a
callable predicate over the boolean 3×3 neighborhood (the only source
callable, the solid sliver spec, reads the neighborhood only through
truthiness). -/
inductive TileSpec where
  | template (arr : TMat) (initialTT : Nat) (rotations : Option Nat)
  | predicate (f : (Fin 3 → Fin 3 → Bool) → SpecResult)

/-- Tile-type constants of the `TileClassifier` base and solid
classifier. -/
def TT_EMPTY : Nat := 0

def TT_NA : Nat := 1

def TT_SOLID : Nat := 2

/-- Template matching at up to `rots` rotations, returning
`initial_tt + i` for the first matching rotation `i`. -/
def tryRots (arr : TMat) (tt : Nat) : Nat → (Fin 3 → Fin 3 → Bool) →
    Option Nat
  | 0, _ => none
  | i + 1, nh =>
    if matchTernary arr nh then some tt
    else tryRots (rotateT arr) (tt + 1) i nh

/-- One `_classify_tile` visit of a cell for one tilespec, acting on the
running `(mask, assignment)` state: skip when the mask is already
cleared, clear it for non-interesting cells, classify solid interiors,
then apply the callable or template. -/
def stepSpec (isSolid : Bool) (nh : Fin 3 → Fin 3 → Bool)
    (st : Bool × Option Nat) (spec : TileSpec) : Bool × Option Nat :=
  if st.1 = false then st
  else if nh 1 1 = false then (false, st.2)
  else if isSolid ∧ (∀ r c, nh r c = true) then (false, some TT_SOLID)
  else
    match spec with
    | .predicate f =>
      match f nh with
      | .boolRes b => (b, st.2)
      | .ttRes tt => (false, some tt)
      | .noRes => st
    | .template arr tt rots =>
      match tryRots arr tt (rots.getD 4) nh with
      | some t => (false, some t)
      | none => st

/-- Per-cell outcome of one `_apply_tilespecs` pass. -/
inductive Outcome where
  | removed
  | assigned (tt : Nat)
  | keepOld
deriving DecidableEq

/-- Outcome of one pass at a cell from its snapshot neighborhood: fold
the tilespecs over the `(mask, assignment)` state; a still-set mask
removes the cell, otherwise the recorded assignment (if any) is
written. -/
def outcomeOfNh (isSolid : Bool) (specs : List TileSpec)
    (nh : Fin 3 → Fin 3 → Bool) : Outcome :=
  let st := specs.foldl (stepSpec isSolid nh) (true, none)
  if st.1 then .removed
  else
    match st.2 with
    | some t => .assigned t
    | none => .keepOld

/-- Border extension `_extend_matrix`: with `withSame` the edge rows and
columns are replicated outwards (index clamping), otherwise the padding
is zero.  Argument coordinates live on the extended `(dim+2)²` grid. -/
def extendMatrix (dim : Nat) (withSame : Bool) (m : Grid) (x y : Nat) :
    Nat :=
  if withSame then m (min (x - 1) (dim - 1)) (min (y - 1) (dim - 1))
  else if 1 ≤ x ∧ x ≤ dim ∧ 1 ≤ y ∧ y ≤ dim then m (x - 1) (y - 1) else 0

/-- Boolean neighborhood of grid cell `(x, y)` (whose extended
coordinates are `(x+1, y+1)`) read from the extended snapshot:
`nhood[r][c] = ext[(y+1)-1+r, (x+1)-1+c] > TT_EMPTY`. -/
def nhOf (ext : Grid) (x y : Nat) : Fin 3 → Fin 3 → Bool :=
  fun r c => decide (ext (x + c.val) (y + r.val) ≠ 0)

/-- Per-cell outcome of `_apply_tilespecs` from the pass snapshot. -/
def cellOutcome (isSolid : Bool) (specs : List TileSpec) (ext : Grid)
    (x y : Nat) : Outcome :=
  outcomeOfNh isSolid specs (nhOf ext x y)

/-- All cell coordinates of a `dim × dim` grid in row-major order. -/
def allCoords (dim : Nat) : List Cell :=
  (List.range dim).flatMap (fun y =>
    (List.range dim).map (fun x => (x, y)))

/-- Classifier state: the working tile-type matrix and the layer
matrix. -/
structure ClsState where
  cls : Grid
  fl : Grid

/-- Per-cell decision of one `_apply_tilespecs` pass, computed against
the snapshot `ext_m = _extend_matrix(m)` taken at the start of the pass
(all neighborhood reads inside a pass go through this copy). -/
def passOutcome (dim : Nat) (isSolid ws : Bool) (specs : List TileSpec)
    (cls : Grid) (x y : Nat) : Outcome :=
  cellOutcome isSolid specs (fun a b => extendMatrix dim ws cls a b) x y

/-- One `_apply_tilespecs` pass: classify every cell against the spec
list, write assignments into the working matrix, then remove
still-masked cells from it (`m[mask] = False`) and from the layer matrix
(`0xFE` when reversed, else `0`).  Returns the new state and
`np.count_nonzero(mask)`. -/
def applyTilespecs (dim : Nat) (isSolid ws rev : Bool)
    (specs : List TileSpec) (st : ClsState) : ClsState × Nat :=
  let out : Nat → Nat → Outcome := passOutcome dim isSolid ws specs st.cls
  let cls1 : Grid := fun x y =>
    if x < dim ∧ y < dim then
      match out x y with
      | .removed => 0
      | .assigned t => t
      | .keepOld => st.cls x y
    else st.cls x y
  let fl1 : Grid := fun x y =>
    if x < dim ∧ y < dim ∧ out x y = .removed then
      (if rev then 0xFE else 0)
    else st.fl x y
  let n := (allCoords dim).countP (fun c => decide (out c.1 c.2 = .removed))
  (⟨cls1, fl1⟩, n)

/-- Body of the per-iteration fold: run one tilespec list and accumulate
its removal count (`n += self._apply_tilespecs(m, *tsl)`). -/
def iterStep (dim : Nat) (isSolid ws rev : Bool) (p : ClsState × Nat)
    (specs : List TileSpec) : ClsState × Nat :=
  let r := applyTilespecs dim isSolid ws rev specs p.1
  (r.1, p.2 + r.2)

/-- One iteration of the `classify` fixed-point loop: apply every
tilespec list in order, accumulating the number of removed tiles. -/
def classifyIter (dim : Nat) (isSolid ws rev : Bool)
    (tsls : List (List TileSpec)) (st : ClsState) : ClsState × Nat :=
  tsls.foldl (iterStep dim isSolid ws rev) (st, 0)

/-- Fixed-point loop of `TileClassifier.classify`: repeat passes until an
iteration removes nothing.  Fuel bounds the recursion only (each further
iteration removes at least one cell, so `dim² + 1` iterations always
suffice). -/
def classifyLoop (dim : Nat) (isSolid ws rev : Bool)
    (tsls : List (List TileSpec)) : Nat → ClsState → Option ClsState
  | 0, _ => none
  | fuel + 1, st =>
    if (classifyIter dim isSolid ws rev tsls st).2 = 0 then
      some (classifyIter dim isSolid ws rev tsls st).1
    else
      classifyLoop dim isSolid ws rev tsls fuel
        (classifyIter dim isSolid ws rev tsls st).1

/-- Working-matrix initialization `_init_matrix`: `TT_NA` at interesting
cells (nonzero, or zero under `rev`), `TT_EMPTY` elsewhere. -/
def initClsMatrix (dim : Nat) (rev : Bool) (fl : Grid) : Grid :=
  fun x y =>
    if x < dim ∧ y < dim ∧ (if rev then fl x y = 0 else fl x y ≠ 0) then
      TT_NA
    else TT_EMPTY

/-- Embedding of `TileClassifier.classify` for the template/predicate
classifiers (solid and line): initialize the working matrix from the
layer, then iterate `_apply_tilespecs` to the fixed point. -/
def classify (dim : Nat) (isSolid ws rev : Bool)
    (tsls : List (List TileSpec)) (fuel : Nat) (fl : Grid) :
    Option ClsState :=
  classifyLoop dim isSolid ws rev tsls fuel ⟨initClsMatrix dim rev fl, fl⟩

/-! Concrete tilespecs of `TileClassifierSolid` and `TileClassifierLine`. -/

/-- Sliver predicate of the solid classifier: a 1-cell-wide protrusion
has empty cells on opposing sides. -/
def sliverSpec : TileSpec :=
  .predicate fun nh =>
    if (nh 0 1 = false ∧ nh 2 1 = false) ∨
        (nh 1 0 = false ∧ nh 1 2 = false) then
      .boolRes true
    else .boolRes false

def tsConcave : TileSpec :=
  .template
    ![![some true, some true, some true],
      ![some true, some true, some true],
      ![some false, some true, some true]] 11 none

def tsConvex : TileSpec :=
  .template
    ![![none, some false, none],
      ![some true, some true, some false],
      ![some true, some true, none]] 15 none

def tsStraightSolid : TileSpec :=
  .template
    ![![none, some false, none],
      ![some true, some true, some true],
      ![some true, some true, some true]] 19 none

/-- Tilespec lists of `TileClassifierSolid.classify`. -/
def solidTsls : List (List TileSpec) :=
  [[sliverSpec], [tsConcave, tsConvex, tsStraightSolid]]

def tsStraightLine : TileSpec :=
  .template
    ![![none, some true, none],
      ![some false, some true, some false],
      ![none, some true, none]] TT_STRAIGHT_NS (some 2)

def tsSource : TileSpec :=
  .template
    ![![none, some true, none],
      ![some false, some true, some false],
      ![none, none, none]] 31 (some 4)

def tsCorner : TileSpec :=
  .template
    ![![none, some true, none],
      ![some false, some true, some true],
      ![none, some false, none]] 41 (some 4)

def tsTbone : TileSpec :=
  .template
    ![![none, some true, none],
      ![some true, some true, some true],
      ![none, some false, none]] 51 (some 4)

def tsFourway : TileSpec :=
  .template
    ![![none, some true, none],
      ![some true, some true, some true],
      ![none, some true, none]] 61 (some 1)

/-- Tilespec list of `TileClassifierLine.classify`. -/
def lineTsls : List (List TileSpec) :=
  [[tsStraightLine, tsSource, tsCorner, tsTbone, tsFourway]]

/-! Classifier invariants and idempotence. -/

/-- Positivity of the tile types a spec can assign. -/
def PosSpec : TileSpec → Prop
  | .template _ tt _ => 0 < tt
  | .predicate f => ∀ nh t, f nh = .ttRes t → 0 < t

/-- A spec list made of ternary templates only (no callables). -/
def TemplatesOnly (l : List TileSpec) : Prop :=
  ∀ s ∈ l, ∃ arr tt rots, s = TileSpec.template arr tt rots

/-- Interesting cells of a layer matrix under the `rev` convention. -/
def Interesting (rev : Bool) (fl : Grid) (x y : Nat) : Prop :=
  if rev then fl x y = 0 else fl x y ≠ 0

/-- The working matrix is nonzero exactly on in-bounds interesting
cells. -/
def PatInv (dim : Nat) (rev : Bool) (st : ClsState) : Prop :=
  ∀ x y, st.cls x y ≠ 0 ↔ (x < dim ∧ y < dim ∧ Interesting rev st.fl x y)

theorem stepSpec_false (isSolid : Bool) (nh : Fin 3 → Fin 3 → Bool)
    (asg : Option Nat) (spec : TileSpec) :
    stepSpec isSolid nh (false, asg) spec = (false, asg) := by
  unfold stepSpec
  simp

theorem foldl_stepSpec_false (isSolid : Bool) (nh : Fin 3 → Fin 3 → Bool)
    (specs : List TileSpec) (asg : Option Nat) :
    specs.foldl (stepSpec isSolid nh) (false, asg) = (false, asg) := by
  induction specs with
  | nil => rfl
  | cons s t ih => rw [List.foldl_cons, stepSpec_false]; exact ih

theorem outcomeOfNh_center_false (isSolid : Bool) {specs : List TileSpec}
    (hne : specs ≠ []) {nh : Fin 3 → Fin 3 → Bool} (hc : nh 1 1 = false) :
    outcomeOfNh isSolid specs nh = .keepOld := by
  cases specs with
  | nil => exact absurd rfl hne
  | cons s t =>
    unfold outcomeOfNh
    rw [List.foldl_cons]
    have h1 : stepSpec isSolid nh (true, none) s = (false, none) := by
      unfold stepSpec
      simp [hc]
    rw [h1, foldl_stepSpec_false]
    rfl

theorem outcomeOfNh_center_of_ne_keepOld (isSolid : Bool)
    {specs : List TileSpec} (hne : specs ≠ [])
    {nh : Fin 3 → Fin 3 → Bool}
    (h : outcomeOfNh isSolid specs nh ≠ .keepOld) : nh 1 1 = true := by
  by_contra hc
  rw [Bool.not_eq_true] at hc
  exact h (outcomeOfNh_center_false isSolid hne hc)

theorem tryRots_ge {arr : TMat} {tt : Nat} {n : Nat}
    {nh : Fin 3 → Fin 3 → Bool} {t : Nat}
    (h : tryRots arr tt n nh = some t) : tt ≤ t := by
  induction n generalizing arr tt with
  | zero => exact absurd h (by simp [tryRots])
  | succ i ih =>
    unfold tryRots at h
    split at h
    · injection h with h; omega
    · exact le_trans (by omega) (ih h)

theorem outcomeOfNh_assigned_pos (isSolid : Bool) {specs : List TileSpec}
    (hp : ∀ s ∈ specs, PosSpec s) {nh : Fin 3 → Fin 3 → Bool} {t : Nat}
    (h : outcomeOfNh isSolid specs nh = .assigned t) : 0 < t := by
  have key : ∀ (l : List TileSpec), (∀ s ∈ l, PosSpec s) →
      ∀ st : Bool × Option Nat,
      (st.2 = none ∨ ∃ u, st.2 = some u ∧ 0 < u) →
      ((l.foldl (stepSpec isSolid nh) st).2 = none ∨
        ∃ u, (l.foldl (stepSpec isSolid nh) st).2 = some u ∧ 0 < u) := by
    intro l
    induction l with
    | nil => intro _ st hst; exact hst
    | cons s t2 ih =>
      intro hl st hst
      rw [List.foldl_cons]
      apply ih (fun s2 hs2 => hl s2 (List.mem_cons_of_mem s hs2))
      unfold stepSpec
      split
      · exact hst
      · split
        · exact hst
        · split
          · exact Or.inr ⟨TT_SOLID, rfl, by norm_num [TT_SOLID]⟩
          · have hps := hl s (List.mem_cons_self s t2)
            cases s with
            | predicate f =>
              simp only
              cases hf : f nh with
              | boolRes b => exact hst
              | ttRes tt => exact Or.inr ⟨tt, rfl, hps nh tt hf⟩
              | noRes => exact hst
            | template arr tt rots =>
              simp only
              cases htr : tryRots arr tt (rots.getD 4) nh with
              | none => exact hst
              | some u =>
                refine Or.inr ⟨u, rfl, ?_⟩
                have := tryRots_ge htr
                have : (0 : Nat) < tt := hps
                omega
  unfold outcomeOfNh at h
  rcases key specs hp (true, none) (Or.inl rfl) with h2 | h2
  · simp only at h
    split at h
    · exact absurd h (by simp)
    · rw [h2] at h
      exact absurd h (by simp)
  · obtain ⟨u, hu, hupos⟩ := h2
    simp only at h
    split at h
    · exact absurd h (by simp)
    · rw [hu] at h
      simp only [Outcome.assigned.injEq] at h
      omega

theorem outcomeOfNh_not_keepOld_cases (isSolid : Bool)
    {specs : List TileSpec} (ht : TemplatesOnly specs)
    {nh : Fin 3 → Fin 3 → Bool} (hc : nh 1 1 = true) :
    outcomeOfNh isSolid specs nh = .removed ∨
      ∃ t, outcomeOfNh isSolid specs nh = .assigned t := by
  have key : ∀ (l : List TileSpec), (∀ s ∈ l, ∃ arr tt rots,
      s = TileSpec.template arr tt rots) →
      ∀ st : Bool × Option Nat,
      (st = (true, none) ∨ (st.1 = false ∧ ∃ u, st.2 = some u)) →
      (l.foldl (stepSpec isSolid nh) st = (true, none) ∨
        ((l.foldl (stepSpec isSolid nh) st).1 = false ∧
          ∃ u, (l.foldl (stepSpec isSolid nh) st).2 = some u)) := by
    intro l
    induction l with
    | nil => intro _ st hst; exact hst
    | cons s t2 ih =>
      intro hl st hst
      rw [List.foldl_cons]
      apply ih (fun s2 hs2 => hl s2 (List.mem_cons_of_mem s hs2))
      rcases hst with hst | hst
      · subst hst
        obtain ⟨arr, tt, rots, hs⟩ := hl s (List.mem_cons_self s t2)
        subst hs
        unfold stepSpec
        simp only [hc]
        split
        · simp at *
        · split
          · exact Or.inr ⟨rfl, TT_SOLID, rfl⟩
          · cases htr : tryRots arr tt (rots.getD 4) nh with
            | none => simp [htr]
            | some u => simp [htr]
      · obtain ⟨hm, u, hu⟩ := hst
        obtain ⟨m0, a0⟩ := st
        simp only at hm
        subst hm
        rw [stepSpec_false]
        exact Or.inr ⟨rfl, u, hu⟩
  simp only [outcomeOfNh]
  rcases key specs ht (true, none) (Or.inl rfl) with h2 | h2
  · rw [h2]
    exact Or.inl rfl
  · obtain ⟨hm, u, hu⟩ := h2
    rw [hm, hu]
    simp

theorem extendMatrix_interior (dim : Nat) (ws : Bool) (m : Grid)
    {x y : Nat} (hx : x < dim) (hy : y < dim) :
    extendMatrix dim ws m (x + 1) (y + 1) = m x y := by
  unfold extendMatrix
  split
  · rw [show min (x + 1 - 1) (dim - 1) = x by omega,
      show min (y + 1 - 1) (dim - 1) = y by omega]
  · rw [if_pos ⟨by omega, by omega, by omega, by omega⟩,
      show x + 1 - 1 = x by omega, show y + 1 - 1 = y by omega]

theorem extendMatrix_pattern_iff (dim : Nat) (ws : Bool) {m1 m2 : Grid}
    (h : ∀ x y, m1 x y ≠ 0 ↔ m2 x y ≠ 0) (a b : Nat) :
    extendMatrix dim ws m1 a b ≠ 0 ↔ extendMatrix dim ws m2 a b ≠ 0 := by
  unfold extendMatrix
  split
  · exact h _ _
  · split
    · exact h _ _
    · exact Iff.rfl

theorem passOutcome_congr (dim : Nat) (isSolid ws : Bool)
    (specs : List TileSpec) {c1 c2 : Grid}
    (h : ∀ x y, c1 x y ≠ 0 ↔ c2 x y ≠ 0) (x y : Nat) :
    passOutcome dim isSolid ws specs c1 x y =
      passOutcome dim isSolid ws specs c2 x y := by
  unfold passOutcome cellOutcome
  congr 1
  funext r c
  unfold nhOf
  exact decide_eq_decide.mpr (extendMatrix_pattern_iff dim ws h _ _)

theorem applyTilespecs_cls (dim : Nat) (isSolid ws rev : Bool)
    (specs : List TileSpec) (st : ClsState) (x y : Nat) :
    (applyTilespecs dim isSolid ws rev specs st).1.cls x y =
      if x < dim ∧ y < dim then
        match passOutcome dim isSolid ws specs st.cls x y with
        | .removed => 0
        | .assigned t => t
        | .keepOld => st.cls x y
      else st.cls x y := rfl

theorem applyTilespecs_fl (dim : Nat) (isSolid ws rev : Bool)
    (specs : List TileSpec) (st : ClsState) (x y : Nat) :
    (applyTilespecs dim isSolid ws rev specs st).1.fl x y =
      if x < dim ∧ y < dim ∧
          passOutcome dim isSolid ws specs st.cls x y = .removed then
        (if rev then 0xFE else 0)
      else st.fl x y := rfl

theorem applyTilespecs_n (dim : Nat) (isSolid ws rev : Bool)
    (specs : List TileSpec) (st : ClsState) :
    (applyTilespecs dim isSolid ws rev specs st).2 =
      (allCoords dim).countP (fun c =>
        decide (passOutcome dim isSolid ws specs st.cls c.1 c.2 =
          .removed)) := rfl

theorem mem_allCoords (dim : Nat) (c : Cell) :
    c ∈ allCoords dim ↔ c.1 < dim ∧ c.2 < dim := by
  obtain ⟨x, y⟩ := c
  simp only [allCoords, List.mem_flatMap, List.mem_map, List.mem_range,
    Prod.mk.injEq]
  constructor
  · rintro ⟨b, hb, a, ha, h1, h2⟩
    subst h1
    subst h2
    exact ⟨ha, hb⟩
  · rintro ⟨h1, h2⟩
    exact ⟨y, h2, x, h1, rfl, rfl⟩

theorem applyTilespecs_no_removed (dim : Nat) (isSolid ws rev : Bool)
    (specs : List TileSpec) (st : ClsState)
    (hn : (applyTilespecs dim isSolid ws rev specs st).2 = 0) :
    ∀ x y, x < dim → y < dim →
      passOutcome dim isSolid ws specs st.cls x y ≠ .removed := by
  rw [applyTilespecs_n] at hn
  intro x y hx hy hrem
  have h2 := List.countP_eq_zero.mp hn (x, y)
    ((mem_allCoords dim (x, y)).mpr ⟨hx, hy⟩)
  simp [hrem] at h2

theorem applyTilespecs_fl_of_n_zero (dim : Nat) (isSolid ws rev : Bool)
    (specs : List TileSpec) (st : ClsState)
    (hn : (applyTilespecs dim isSolid ws rev specs st).2 = 0) :
    (applyTilespecs dim isSolid ws rev specs st).1.fl = st.fl := by
  funext x y
  rw [applyTilespecs_fl]
  split
  · rename_i h
    exact absurd h.2.2
      (applyTilespecs_no_removed dim isSolid ws rev specs st hn x y h.1 h.2.1)
  · rfl

theorem interesting_congr (rev : Bool) {fl1 fl2 : Grid} {x y : Nat}
    (h : fl1 x y = fl2 x y) :
    Interesting rev fl1 x y ↔ Interesting rev fl2 x y := by
  unfold Interesting
  cases rev <;> simp [h]

theorem passOutcome_center (dim : Nat) (isSolid ws : Bool)
    (specs : List TileSpec) (cls : Grid) (hne : specs ≠ []) {x y : Nat}
    (hx : x < dim) (hy : y < dim)
    (h : passOutcome dim isSolid ws specs cls x y ≠ .keepOld) :
    cls x y ≠ 0 := by
  unfold passOutcome cellOutcome at h
  have hc := outcomeOfNh_center_of_ne_keepOld isSolid hne h
  have hc' : extendMatrix dim ws cls (x + 1) (y + 1) ≠ 0 := by
    simpa [nhOf] using hc
  rw [extendMatrix_interior dim ws cls hx hy] at hc'
  exact hc'

theorem applyTilespecs_patInv (dim : Nat) (isSolid ws rev : Bool)
    (specs : List TileSpec) (st : ClsState) (hinv : PatInv dim rev st)
    (hpos : ∀ s ∈ specs, PosSpec s) (hne : specs ≠ []) :
    PatInv dim rev (applyTilespecs dim isSolid ws rev specs st).1 := by
  intro x y
  rw [applyTilespecs_cls]
  by_cases hb : x < dim ∧ y < dim
  · cases hout : passOutcome dim isSolid ws specs st.cls x y with
    | removed =>
      rw [if_pos hb]
      simp only [hout]
      constructor
      · intro hcls
        exact absurd rfl hcls
      · rintro ⟨-, -, hint⟩
        exfalso
        have hfl : (applyTilespecs dim isSolid ws rev specs st).1.fl x y =
            (if rev then 0xFE else 0) := by
          rw [applyTilespecs_fl, if_pos ⟨hb.1, hb.2, hout⟩]
        unfold Interesting at hint
        cases rev <;> simp_all
    | assigned t =>
      rw [if_pos hb]
      simp only [hout]
      have hpos' : 0 < t := by
        unfold passOutcome cellOutcome at hout
        exact outcomeOfNh_assigned_pos isSolid hpos hout
      have hcenter : st.cls x y ≠ 0 :=
        passOutcome_center dim isSolid ws specs st.cls hne hb.1 hb.2
          (by rw [hout]; simp)
      have hint := ((hinv x y).mp hcenter).2.2
      have hfl : (applyTilespecs dim isSolid ws rev specs st).1.fl x y =
          st.fl x y := by
        rw [applyTilespecs_fl, if_neg (by rw [hout]; simp)]
      constructor
      · intro _
        exact ⟨hb.1, hb.2, (interesting_congr rev hfl.symm).mp hint⟩
      · intro _
        omega
    | keepOld =>
      rw [if_pos hb]
      simp only [hout]
      have hfl : (applyTilespecs dim isSolid ws rev specs st).1.fl x y =
          st.fl x y := by
        rw [applyTilespecs_fl, if_neg (by rw [hout]; simp)]
      rw [hinv x y]
      constructor
      · rintro ⟨h1, h2, h3⟩
        exact ⟨h1, h2, (interesting_congr rev hfl.symm).mp h3⟩
      · rintro ⟨h1, h2, h3⟩
        exact ⟨h1, h2, (interesting_congr rev hfl).mp h3⟩
  · rw [if_neg hb]
    have hfl : (applyTilespecs dim isSolid ws rev specs st).1.fl x y =
        st.fl x y := by
      rw [applyTilespecs_fl, if_neg (by tauto)]
    rw [hinv x y]
    constructor
    · rintro ⟨h1, h2, h3⟩
      exact ⟨h1, h2, (interesting_congr rev hfl.symm).mp h3⟩
    · rintro ⟨h1, h2, h3⟩
      exact absurd ⟨h1, h2⟩ hb

theorem applyTilespecs_fl_change (dim : Nat) (isSolid ws rev : Bool)
    (specs : List TileSpec) (st : ClsState) (hinv : PatInv dim rev st)
    (hne : specs ≠ []) (x y : Nat) :
    (applyTilespecs dim isSolid ws rev specs st).1.fl x y = st.fl x y ∨
      (Interesting rev st.fl x y ∧
        (applyTilespecs dim isSolid ws rev specs st).1.fl x y =
          (if rev then 0xFE else 0)) := by
  rw [applyTilespecs_fl]
  by_cases h : x < dim ∧ y < dim ∧
      passOutcome dim isSolid ws specs st.cls x y = .removed
  · rw [if_pos h]
    right
    refine ⟨?_, rfl⟩
    have hcenter : st.cls x y ≠ 0 :=
      passOutcome_center dim isSolid ws specs st.cls hne h.1 h.2.1
        (by rw [h.2.2]; simp)
    exact ((hinv x y).mp hcenter).2.2
  · rw [if_neg h]
    exact Or.inl rfl

theorem ClsState.ext2 {a b : ClsState} (h1 : a.cls = b.cls)
    (h2 : a.fl = b.fl) : a = b := by
  cases a
  cases b
  cases h1
  cases h2
  rfl

theorem patterns_iff_of_equiv {dim : Nat} {rev : Bool} {stA stB : ClsState}
    (hA : PatInv dim rev stA) (hB : PatInv dim rev stB)
    (hfl : stA.fl = stB.fl) :
    ∀ x y, stA.cls x y ≠ 0 ↔ stB.cls x y ≠ 0 := by
  intro x y
  rw [hA x y, hB x y, hfl]

theorem applyTilespecs_equiv (dim : Nat) (isSolid ws rev : Bool)
    (specs : List TileSpec) {stA stB : ClsState}
    (hA : PatInv dim rev stA) (hB : PatInv dim rev stB)
    (hfl : stA.fl = stB.fl) :
    (applyTilespecs dim isSolid ws rev specs stA).2 =
      (applyTilespecs dim isSolid ws rev specs stB).2 ∧
    (applyTilespecs dim isSolid ws rev specs stA).1.fl =
      (applyTilespecs dim isSolid ws rev specs stB).1.fl := by
  have hout : ∀ x y, passOutcome dim isSolid ws specs stA.cls x y =
      passOutcome dim isSolid ws specs stB.cls x y :=
    fun x y => passOutcome_congr dim isSolid ws specs
      (patterns_iff_of_equiv hA hB hfl) x y
  constructor
  · rw [applyTilespecs_n, applyTilespecs_n]
    apply List.countP_congr
    intro c _
    rw [hout c.1 c.2]
  · funext x y
    rw [applyTilespecs_fl, applyTilespecs_fl, hout x y, hfl]

theorem passOutcome_keepOld_cls_zero (dim : Nat) (isSolid ws : Bool)
    {specs : List TileSpec} (htmpl : TemplatesOnly specs)
    (cls : Grid) {x y : Nat} (hx : x < dim) (hy : y < dim)
    (h : passOutcome dim isSolid ws specs cls x y = .keepOld) :
    cls x y = 0 := by
  by_contra hcls
  have hc : nhOf (fun a b => extendMatrix dim ws cls a b) x y 1 1 = true := by
    simp only [nhOf]
    apply decide_eq_true
    rw [show x + ((1 : Fin 3) : Nat) = x + 1 from rfl,
      show y + ((1 : Fin 3) : Nat) = y + 1 from rfl,
      extendMatrix_interior dim ws cls hx hy]
    exact hcls
  unfold passOutcome cellOutcome at h
  rcases outcomeOfNh_not_keepOld_cases isSolid htmpl hc with h2 | ⟨t, h2⟩ <;>
    rw [h] at h2 <;> exact absurd h2 (by simp)

theorem applyTilespecs_determined (dim : Nat) (isSolid ws rev : Bool)
    {specs : List TileSpec} {stA stB : ClsState}
    (hA : PatInv dim rev stA) (hB : PatInv dim rev stB)
    (hfl : stA.fl = stB.fl) (htmpl : TemplatesOnly specs) :
    applyTilespecs dim isSolid ws rev specs stB =
      applyTilespecs dim isSolid ws rev specs stA := by
  have hout : ∀ x y, passOutcome dim isSolid ws specs stA.cls x y =
      passOutcome dim isSolid ws specs stB.cls x y :=
    fun x y => passOutcome_congr dim isSolid ws specs
      (patterns_iff_of_equiv hA hB hfl) x y
  obtain ⟨hn, hfl'⟩ := applyTilespecs_equiv dim isSolid ws rev specs hA hB hfl
  have hcls : (applyTilespecs dim isSolid ws rev specs stB).1.cls =
      (applyTilespecs dim isSolid ws rev specs stA).1.cls := by
    funext x y
    rw [applyTilespecs_cls, applyTilespecs_cls, ← hout x y]
    by_cases hb : x < dim ∧ y < dim
    · rw [if_pos hb, if_pos hb]
      cases houtc : passOutcome dim isSolid ws specs stA.cls x y with
      | removed => rfl
      | assigned t => rfl
      | keepOld =>
        have hzA : stA.cls x y = 0 :=
          passOutcome_keepOld_cls_zero dim isSolid ws htmpl stA.cls
            hb.1 hb.2 houtc
        have hzB : stB.cls x y = 0 := by
          by_contra hzB
          exact absurd ((patterns_iff_of_equiv hA hB hfl x y).mpr hzB)
            (by simp [hzA])
        rw [hzA, hzB]
    · rw [if_neg hb, if_neg hb]
      have hzA : stA.cls x y = 0 := by
        by_contra h
        exact hb ⟨((hA x y).mp h).1, ((hA x y).mp h).2.1⟩
      have hzB : stB.cls x y = 0 := by
        by_contra h
        exact hb ⟨((hB x y).mp h).1, ((hB x y).mp h).2.1⟩
      rw [hzA, hzB]
  have h1 : (applyTilespecs dim isSolid ws rev specs stB).1 =
      (applyTilespecs dim isSolid ws rev specs stA).1 :=
    ClsState.ext2 hcls hfl'.symm
  have h2 : (applyTilespecs dim isSolid ws rev specs stB).2 =
      (applyTilespecs dim isSolid ws rev specs stA).2 := hn.symm
  exact Prod.ext h1 h2

theorem iterFold_patInv (dim : Nat) (isSolid ws rev : Bool)
    (l : List (List TileSpec))
    (hpos : ∀ specs ∈ l, ∀ s ∈ specs, PosSpec s)
    (hne : ∀ specs ∈ l, specs ≠ []) :
    ∀ p : ClsState × Nat, PatInv dim rev p.1 →
      PatInv dim rev ((l.foldl (iterStep dim isSolid ws rev) p)).1 := by
  induction l with
  | nil => intro p hp; exact hp
  | cons specs t ih =>
    intro p hp
    rw [List.foldl_cons]
    exact ih (fun s2 h2 => hpos s2 (List.mem_cons_of_mem _ h2))
      (fun s2 h2 => hne s2 (List.mem_cons_of_mem _ h2)) _
      (applyTilespecs_patInv dim isSolid ws rev specs p.1 hp
        (hpos specs (List.mem_cons_self _ _))
        (hne specs (List.mem_cons_self _ _)))

theorem iterFold_n_mono (dim : Nat) (isSolid ws rev : Bool)
    (l : List (List TileSpec)) :
    ∀ p : ClsState × Nat,
      p.2 ≤ ((l.foldl (iterStep dim isSolid ws rev) p)).2 := by
  induction l with
  | nil => intro p; exact le_refl _
  | cons specs t ih =>
    intro p
    rw [List.foldl_cons]
    exact le_trans (by unfold iterStep; simp) (ih _)

theorem iterFold_fl_of_zero (dim : Nat) (isSolid ws rev : Bool)
    (l : List (List TileSpec)) :
    ∀ (st : ClsState) (n : Nat),
      ((l.foldl (iterStep dim isSolid ws rev) (st, n))).2 = n →
      ((l.foldl (iterStep dim isSolid ws rev) (st, n))).1.fl = st.fl := by
  induction l with
  | nil => intro st n _; rfl
  | cons specs t ih =>
    intro st n htot
    rw [List.foldl_cons] at htot ⊢
    have hstep : iterStep dim isSolid ws rev (st, n) specs =
        ((applyTilespecs dim isSolid ws rev specs st).1,
          n + (applyTilespecs dim isSolid ws rev specs st).2) := rfl
    rw [hstep] at htot ⊢
    have hmono := iterFold_n_mono dim isSolid ws rev t
      ((applyTilespecs dim isSolid ws rev specs st).1,
        n + (applyTilespecs dim isSolid ws rev specs st).2)
    have hz : (applyTilespecs dim isSolid ws rev specs st).2 = 0 := by
      simp only at hmono
      omega
    have hfl := applyTilespecs_fl_of_n_zero dim isSolid ws rev specs st hz
    rw [hz] at htot ⊢
    rw [ih _ _ htot, hfl]

theorem iterFold_equiv (dim : Nat) (isSolid ws rev : Bool)
    (l : List (List TileSpec))
    (hpos : ∀ specs ∈ l, ∀ s ∈ specs, PosSpec s)
    (hne : ∀ specs ∈ l, specs ≠ []) :
    ∀ {stA stB : ClsState} (nA nB : Nat), PatInv dim rev stA →
      PatInv dim rev stB → stA.fl = stB.fl →
      ∃ k, ((l.foldl (iterStep dim isSolid ws rev) (stA, nA))).2 = nA + k ∧
        ((l.foldl (iterStep dim isSolid ws rev) (stB, nB))).2 = nB + k ∧
        ((l.foldl (iterStep dim isSolid ws rev) (stA, nA))).1.fl =
          ((l.foldl (iterStep dim isSolid ws rev) (stB, nB))).1.fl ∧
        PatInv dim rev ((l.foldl (iterStep dim isSolid ws rev) (stA, nA))).1 ∧
        PatInv dim rev ((l.foldl (iterStep dim isSolid ws rev) (stB, nB))).1 := by
  induction l with
  | nil =>
    intro stA stB nA nB hA hB hfl
    exact ⟨0, rfl, rfl, hfl, hA, hB⟩
  | cons specs t ih =>
    intro stA stB nA nB hA hB hfl
    rw [List.foldl_cons, List.foldl_cons]
    obtain ⟨hneq, hfleq⟩ :=
      applyTilespecs_equiv dim isSolid ws rev specs hA hB hfl
    have hA' := applyTilespecs_patInv dim isSolid ws rev specs stA hA
      (hpos specs (List.mem_cons_self _ _)) (hne specs (List.mem_cons_self _ _))
    have hB' := applyTilespecs_patInv dim isSolid ws rev specs stB hB
      (hpos specs (List.mem_cons_self _ _)) (hne specs (List.mem_cons_self _ _))
    obtain ⟨k, h1, h2, h3, h4, h5⟩ := ih
      (fun s2 h => hpos s2 (List.mem_cons_of_mem _ h))
      (fun s2 h => hne s2 (List.mem_cons_of_mem _ h))
      (nA + (applyTilespecs dim isSolid ws rev specs stA).2)
      (nB + (applyTilespecs dim isSolid ws rev specs stB).2)
      hA' hB' hfleq
    refine ⟨(applyTilespecs dim isSolid ws rev specs stA).2 + k, ?_, ?_,
      h3, h4, h5⟩
    · rw [show iterStep dim isSolid ws rev (stA, nA) specs =
        ((applyTilespecs dim isSolid ws rev specs stA).1,
          nA + (applyTilespecs dim isSolid ws rev specs stA).2) from rfl]
      omega
    · rw [show iterStep dim isSolid ws rev (stB, nB) specs =
        ((applyTilespecs dim isSolid ws rev specs stB).1,
          nB + (applyTilespecs dim isSolid ws rev specs stB).2) from rfl]
      omega

theorem initClsMatrix_patInv (dim : Nat) (rev : Bool) (fl : Grid) :
    PatInv dim rev ⟨initClsMatrix dim rev fl, fl⟩ := by
  intro x y
  simp only [initClsMatrix]
  by_cases h : x < dim ∧ y < dim ∧ (if rev then fl x y = 0 else fl x y ≠ 0)
  · rw [if_pos h]
    constructor
    · intro _
      exact h
    · intro _
      decide
  · rw [if_neg h]
    constructor
    · intro h0
      exact absurd rfl h0
    · intro hh
      exact absurd hh h

theorem classifyLoop_reaches (dim : Nat) (isSolid ws rev : Bool)
    (tsls : List (List TileSpec))
    (hpos : ∀ l ∈ tsls, ∀ s ∈ l, PosSpec s)
    (hne : ∀ l ∈ tsls, l ≠ []) (fuel : Nat) :
    ∀ st0 st1 : ClsState, PatInv dim rev st0 →
      classifyLoop dim isSolid ws rev tsls fuel st0 = some st1 →
      ∃ stPen, PatInv dim rev stPen ∧
        classifyIter dim isSolid ws rev tsls stPen = (st1, 0) := by
  induction fuel with
  | zero =>
    intro st0 st1 _ h
    exact absurd h (by simp [classifyLoop])
  | succ f ih =>
    intro st0 st1 hinv h
    unfold classifyLoop at h
    by_cases hz : (classifyIter dim isSolid ws rev tsls st0).2 = 0
    · rw [if_pos hz] at h
      refine ⟨st0, hinv, ?_⟩
      rw [← Option.some.inj h]
      exact Prod.ext rfl hz
    · rw [if_neg hz] at h
      exact ih _ st1 (iterFold_patInv dim isSolid ws rev tsls hpos hne
        (st0, 0) hinv) h

/-- C9: running a template/predicate tile classifier on a layer already
classified to its fixed point is a no-op: the layer matrix is unchanged
and the second classification equals the first.  The hypotheses hold for
the solid and line classifiers: every spec assigns positive tile types,
no spec list is empty, and the final spec list consists of ternary
templates only. -/
theorem classify_idempotent (dim : Nat) (isSolid ws rev : Bool)
    (tsls pre : List (List TileSpec)) (l0 : List TileSpec)
    (fuel fuel' : Nat)
    (hpos : ∀ l ∈ tsls, ∀ s ∈ l, PosSpec s)
    (hne : ∀ l ∈ tsls, l ≠ [])
    (hsplit : tsls = pre ++ [l0]) (htmpl : TemplatesOnly l0)
    (hf : 1 ≤ fuel') (fl0 : Grid) (st1 : ClsState)
    (hrun : classify dim isSolid ws rev tsls fuel fl0 = some st1) :
    classify dim isSolid ws rev tsls fuel' st1.fl = some st1 := by
  obtain ⟨stPen, hinvPen, hiter⟩ := classifyLoop_reaches dim isSolid ws rev
    tsls hpos hne fuel _ st1 (initClsMatrix_patInv dim rev fl0) hrun
  have hiter1 : (classifyIter dim isSolid ws rev tsls stPen).1 = st1 := by
    rw [hiter]
  have hiter2 : (classifyIter dim isSolid ws rev tsls stPen).2 = 0 := by
    rw [hiter]
  have hfl0 : st1.fl = stPen.fl := by
    have hz := iterFold_fl_of_zero dim isSolid ws rev tsls stPen 0 hiter2
    rw [← hiter1]
    exact hz
  have hposPre : ∀ l ∈ pre, ∀ s ∈ l, PosSpec s := by
    intro l hl
    exact hpos l (by rw [hsplit]; exact List.mem_append_left _ hl)
  have hnePre : ∀ l ∈ pre, l ≠ [] := by
    intro l hl
    exact hne l (by rw [hsplit]; exact List.mem_append_left _ hl)
  set st2 : ClsState := ⟨initClsMatrix dim rev st1.fl, st1.fl⟩ with hst2
  have hinv2 : PatInv dim rev st2 := initClsMatrix_patInv dim rev st1.fl
  -- decompose the penultimate-state iteration at the final spec list
  have hdecompA : classifyIter dim isSolid ws rev tsls stPen =
      iterStep dim isSolid ws rev
        (pre.foldl (iterStep dim isSolid ws rev) (stPen, 0)) l0 := by
    unfold classifyIter
    rw [hsplit, List.foldl_append, List.foldl_cons, List.foldl_nil]
  have hdecompB : classifyIter dim isSolid ws rev tsls st2 =
      iterStep dim isSolid ws rev
        (pre.foldl (iterStep dim isSolid ws rev) (st2, 0)) l0 := by
    unfold classifyIter
    rw [hsplit, List.foldl_append, List.foldl_cons, List.foldl_nil]
  set pA := pre.foldl (iterStep dim isSolid ws rev) (stPen, 0) with hpA
  set pB := pre.foldl (iterStep dim isSolid ws rev) (st2, 0) with hpB
  obtain ⟨k, hk1, hk2, hk3, hk4, hk5⟩ := iterFold_equiv dim isSolid ws rev
    pre hposPre hnePre 0 0 hinvPen hinv2 hfl0.symm
  rw [← hpA] at hk1 hk3 hk4
  rw [← hpB] at hk2 hk3 hk5
  -- the successful iteration removed nothing in its prefix or last pass
  have hstepA : iterStep dim isSolid ws rev pA l0 =
      ((applyTilespecs dim isSolid ws rev l0 pA.1).1,
        pA.2 + (applyTilespecs dim isSolid ws rev l0 pA.1).2) := rfl
  have htotA : pA.2 + (applyTilespecs dim isSolid ws rev l0 pA.1).2 = 0 := by
    have := hiter2
    rw [hdecompA, hstepA] at this
    exact this
  have hkz : k = 0 := by omega
  have hnB : pB.2 = 0 := by omega
  have hlast := applyTilespecs_determined dim isSolid ws rev hk4 hk5 hk3 htmpl
  have hiterB : classifyIter dim isSolid ws rev tsls st2 = (st1, 0) := by
    rw [hdecompB]
    rw [show iterStep dim isSolid ws rev pB l0 =
      ((applyTilespecs dim isSolid ws rev l0 pB.1).1,
        pB.2 + (applyTilespecs dim isSolid ws rev l0 pB.1).2) from rfl]
    rw [hlast, hnB]
    have h1 : (applyTilespecs dim isSolid ws rev l0 pA.1).1 = st1 := by
      have := hiter1
      rw [hdecompA, hstepA] at this
      exact this
    have h2 : (applyTilespecs dim isSolid ws rev l0 pA.1).2 = 0 := by omega
    rw [h1, h2]
  obtain ⟨f2, rfl⟩ : ∃ f2, fuel' = f2 + 1 := ⟨fuel' - 1, by omega⟩
  unfold classify classifyLoop
  rw [show (⟨initClsMatrix dim rev st1.fl, st1.fl⟩ : ClsState) = st2 from rfl]
  rw [hiterB]
  simp

/-- River layer for the classifier witness: a straight vertical river in
column 1 of a 4×4 grid. -/
def c9fl : Grid := fun x y => if x = 1 ∧ y < 4 then 1 else 0

/-- First classification run of the line classifier (`extend = False`,
`rev = False`, as used by `RiverLayer`). -/
def c9run : Option ClsState := classify 4 false false false lineTsls 3 c9fl

def c9st : ClsState := c9run.getD ⟨fun _ _ => 0, fun _ _ => 0⟩

/-- Witness for `classify_idempotent`: the line classifier on a concrete
already-classified river layer. -/
theorem classify_idempotent_witness :
    c9run = some c9st ∧
      classify 4 false false false lineTsls 2 c9st.fl = some c9st := by
  have hrun : c9run = some c9st := by with_unfolding_all rfl
  refine ⟨hrun, ?_⟩
  have hpos : ∀ l ∈ lineTsls, ∀ s ∈ l, PosSpec s := by
    intro l hl s hs
    simp only [lineTsls, List.mem_singleton] at hl
    subst hl
    simp only [List.mem_cons, List.not_mem_nil, or_false] at hs
    rcases hs with rfl | rfl | rfl | rfl | rfl <;>
      simp [PosSpec, tsStraightLine, tsSource, tsCorner, tsTbone,
        tsFourway, TT_STRAIGHT_NS]
  have hne : ∀ l ∈ lineTsls, l ≠ [] := by
    intro l hl
    simp only [lineTsls, List.mem_singleton] at hl
    subst hl
    simp
  have htmpl : TemplatesOnly
      [tsStraightLine, tsSource, tsCorner, tsTbone, tsFourway] := by
    intro s hs
    simp only [List.mem_cons, List.not_mem_nil, or_false] at hs
    rcases hs with rfl | rfl | rfl | rfl | rfl <;>
      exact ⟨_, _, _, rfl⟩
  exact classify_idempotent 4 false false false lineTsls []
    [tsStraightLine, tsSource, tsCorner, tsTbone, tsFourway] 3 2
    hpos hne rfl htmpl (by norm_num) c9fl c9st hrun

/-! Sea layer (`SeaLayer.generate`) and segment labeling
(`GameFieldLayer.label_matrix_segments`). -/

/-- Modelled from the spec: the library call `scipy.ndimage.label`
assigns the 4-connected components of the nonzero cells successive
positive labels starting at 1 in row-major first-encounter order.  This
flood fill labels one component; fuel bounds the frontier processing. -/
def floodFill (dim : Nat) (m : Grid) (tgt : Nat) :
    Nat → List Cell → Grid → Grid
  | 0, _, lab => lab
  | _ + 1, [], lab => lab
  | fuel + 1, c :: rest, lab =>
    if m c.1 c.2 ≠ 0 ∧ lab c.1 c.2 = 0 then
      floodFill dim m tgt fuel (rest ++ edgeNeighbors dim c.1 c.2)
        (mset lab c.1 c.2 tgt)
    else floodFill dim m tgt fuel rest lab

/-- Modelled from the spec: `scipy.ndimage.label` — scan cells in
row-major order, flooding each unlabeled nonzero cell with a fresh
label; returns the labeled grid and the number of labels. -/
def labelSegments (dim : Nat) (m : Grid) : Grid × Nat :=
  (allCoords dim).foldl (fun acc c =>
    if m c.1 c.2 ≠ 0 ∧ acc.1 c.1 c.2 = 0 then
      (floodFill dim m (acc.2 + 1) (dim * dim * 5 + 1) [c] acc.1, acc.2 + 1)
    else acc) (fun _ _ => 0, 0)

/-- Count of cells holding value `v` (`len(np.where(matrix == i)[0])`). -/
def countVal (dim : Nat) (m : Grid) (v : Nat) : Nat :=
  (allCoords dim).countP (fun c => decide (m c.1 c.2 = v))

/-- Minimum-size filter of `label_matrix_segments`: zero out every label
in `1..n_labels` whose cell count is below `min_size`. -/
def filterSmall (dim : Nat) (lab : Grid) (n minSize : Nat) : Grid :=
  (List.range n).foldl (fun g i =>
    if countVal dim g (i + 1) < minSize then
      fun x y => if g x y = i + 1 then 0 else g x y
    else g) lab

/-- Embedding of `GameFieldLayer.label_matrix_segments`: label, then
filter small segments when `min_size > 0`. -/
def labelMatrixSegments (dim : Nat) (m : Grid) (minSize : Nat) :
    Grid × Nat :=
  let r := labelSegments dim m
  (if 0 < minSize then filterSmall dim r.1 r.2 minSize else r.1, r.2)

/-- Sea candidate grid of `SeaLayer.generate`:
`np.where(hmatrix <= SEA_THRESHOLD, 1, 0)`. -/
def seaThresholdGrid (dim : Nat) (hm : Grid) : Grid :=
  fun x y => if x < dim ∧ y < dim ∧ hm x y ≤ SEA_THRESHOLD then 1 else 0

/-- Embedding of `SeaLayer.generate` followed by its classification (the
`classified` decorator): threshold the heightmap, label and filter sea
segments with `MIN_SEA_SIZE`, then run the reversed solid classifier
(`classify_rev = True`, `extend` defaulting to `True`). -/
def seaLayerGenerate (dim : Nat) (hm : Grid) (fuel : Nat) :
    Option ClsState :=
  classify dim true true true solidTsls fuel
    (labelMatrixSegments dim (seaThresholdGrid dim hm) MIN_SEA_SIZE).1

theorem foldl_invariant {α β : Type} (f : β → α → β) (P : β → Prop)
    (hf : ∀ b a, P b → P (f b a)) (l : List α) (b : β) (hb : P b) :
    P (l.foldl f b) := by
  induction l generalizing b with
  | nil => exact hb
  | cons a t ih => exact ih _ (hf b a hb)

theorem floodFill_le (dim : Nat) (m : Grid) (tgt : Nat) (fuel : Nat) :
    ∀ (frontier : List Cell) (lab : Grid) (x y : Nat),
      floodFill dim m tgt fuel frontier lab x y = lab x y ∨
        floodFill dim m tgt fuel frontier lab x y = tgt := by
  induction fuel with
  | zero => intro frontier lab x y; exact Or.inl rfl
  | succ f ih =>
    intro frontier lab x y
    cases frontier with
    | nil => exact Or.inl rfl
    | cons c rest =>
      unfold floodFill
      split
      · rcases ih (rest ++ edgeNeighbors dim c.1 c.2)
          (mset lab c.1 c.2 tgt) x y with h | h
        · rw [h]
          unfold mset
          split
          · exact Or.inr rfl
          · exact Or.inl rfl
        · exact Or.inr h
      · exact ih rest lab x y

theorem labelSegments_le (dim : Nat) (m : Grid) (x y : Nat) :
    (labelSegments dim m).1 x y ≤ (labelSegments dim m).2 := by
  unfold labelSegments
  have h := foldl_invariant
    (fun (acc : Grid × Nat) c =>
      if m c.1 c.2 ≠ 0 ∧ acc.1 c.1 c.2 = 0 then
        (floodFill dim m (acc.2 + 1) (dim * dim * 5 + 1) [c] acc.1,
          acc.2 + 1)
      else acc)
    (fun acc => ∀ a b, acc.1 a b ≤ acc.2)
    ?_ (allCoords dim) (fun _ _ => 0, 0) (fun _ _ => Nat.zero_le 0)
  · exact h x y
  · intro acc c hacc a b
    show (if m c.1 c.2 ≠ 0 ∧ acc.1 c.1 c.2 = 0 then
        (floodFill dim m (acc.2 + 1) (dim * dim * 5 + 1) [c] acc.1,
          acc.2 + 1)
      else acc).1 a b ≤ (if m c.1 c.2 ≠ 0 ∧ acc.1 c.1 c.2 = 0 then
        (floodFill dim m (acc.2 + 1) (dim * dim * 5 + 1) [c] acc.1,
          acc.2 + 1)
      else acc).2
    split
    · show floodFill dim m (acc.2 + 1) (dim * dim * 5 + 1) [c] acc.1 a b ≤
        acc.2 + 1
      rcases floodFill_le dim m (acc.2 + 1) (dim * dim * 5 + 1) [c]
        acc.1 a b with h2 | h2
      · rw [h2]
        exact le_trans (hacc a b) (Nat.le_succ _)
      · rw [h2]
    · exact hacc a b

theorem countVal_congr (dim : Nat) {m1 m2 : Grid} (v : Nat)
    (h : ∀ x y, x < dim → y < dim → (m1 x y = v ↔ m2 x y = v)) :
    countVal dim m1 v = countVal dim m2 v := by
  unfold countVal
  apply List.countP_congr
  intro c hc
  have hb := (mem_allCoords dim c).mp hc
  have := h c.1 c.2 hb.1 hb.2
  by_cases h1 : m1 c.1 c.2 = v
  · simp [h1, this.mp h1]
  · have h2 : ¬ m2 c.1 c.2 = v := fun hx => h1 (this.mpr hx)
    simp [h1, h2]

theorem filterSmall_eq_or_zero (dim : Nat) (lab : Grid)
    (n minSize x y : Nat) :
    filterSmall dim lab n minSize x y = lab x y ∨
      filterSmall dim lab n minSize x y = 0 := by
  unfold filterSmall
  apply foldl_invariant _ (fun g => g x y = lab x y ∨ g x y = 0) ?_
    (List.range n) lab (Or.inl rfl)
  intro g i hg
  show (if countVal dim g (i + 1) < minSize then
      (fun a b => if g a b = i + 1 then 0 else g a b : Grid)
    else g) x y = lab x y ∨
    (if countVal dim g (i + 1) < minSize then
      (fun a b => if g a b = i + 1 then 0 else g a b : Grid)
    else g) x y = 0
  split
  · show (if g x y = i + 1 then 0 else g x y) = lab x y ∨
      (if g x y = i + 1 then 0 else g x y) = 0
    split
    · exact Or.inr rfl
    · exact hg
  · exact hg

theorem filterSmall_big_or_absent (dim : Nat) (lab : Grid)
    (minSize : Nat) :
    ∀ (n v : Nat), 0 < v → v ≤ n →
      minSize ≤ countVal dim (filterSmall dim lab n minSize) v ∨
      (∀ x y, x < dim → y < dim → filterSmall dim lab n minSize x y ≠ v) := by
  intro n
  induction n with
  | zero => intro v hv hle; omega
  | succ n ih =>
    intro v hv hle
    have hstep : filterSmall dim lab (n + 1) minSize =
        if countVal dim (filterSmall dim lab n minSize) (n + 1) < minSize then
          (fun x y => if filterSmall dim lab n minSize x y = n + 1 then 0
            else filterSmall dim lab n minSize x y : Grid)
        else filterSmall dim lab n minSize := by
      unfold filterSmall
      rw [List.range_succ, List.foldl_append, List.foldl_cons,
        List.foldl_nil]
    by_cases hv' : v = n + 1
    · subst hv'
      by_cases hc : countVal dim (filterSmall dim lab n minSize) (n + 1)
          < minSize
      · right
        intro x y _ _ h
        rw [hstep, if_pos hc] at h
        have h2 : (if filterSmall dim lab n minSize x y = n + 1 then 0
            else filterSmall dim lab n minSize x y) = n + 1 := h
        split at h2
        · omega
        · omega
      · left
        rw [hstep, if_neg hc]
        omega
    · have hvn : v ≤ n := by omega
      rcases ih v hv hvn with hbig | habs
      · left
        rw [hstep]
        split
        · have he : countVal dim
              (fun x y => if filterSmall dim lab n minSize x y = n + 1 then 0
                else filterSmall dim lab n minSize x y) v =
              countVal dim (filterSmall dim lab n minSize) v := by
            apply countVal_congr
            intro x y _ _
            constructor
            · intro h
              have h2 : (if filterSmall dim lab n minSize x y = n + 1 then 0
                  else filterSmall dim lab n minSize x y) = v := h
              split at h2
              · omega
              · exact h2
            · intro h
              show (if filterSmall dim lab n minSize x y = n + 1 then 0
                else filterSmall dim lab n minSize x y) = v
              rw [if_neg (by omega)]
              exact h
          rw [he]
          exact hbig
        · exact hbig
      · right
        rw [hstep]
        intro x y hx hy
        split
        · intro h
          have h2 : (if filterSmall dim lab n minSize x y = n + 1 then 0
              else filterSmall dim lab n minSize x y) = v := h
          split at h2
          · omega
          · exact habs x y hx hy h2
        · exact habs x y hx hy

/-! Evolution of the layer matrix through reversed classification. -/

theorem iterFold_fl_evol (dim : Nat) (isSolid ws : Bool)
    (l : List (List TileSpec))
    (hpos : ∀ specs ∈ l, ∀ s ∈ specs, PosSpec s)
    (hne : ∀ specs ∈ l, specs ≠ []) :
    ∀ p : ClsState × Nat, PatInv dim true p.1 → ∀ x y,
      ((l.foldl (iterStep dim isSolid ws true) p)).1.fl x y = p.1.fl x y ∨
        (p.1.fl x y = 0 ∧
          ((l.foldl (iterStep dim isSolid ws true) p)).1.fl x y = 0xFE) := by
  induction l with
  | nil => intro p _ x y; exact Or.inl rfl
  | cons specs t ih =>
    intro p hp x y
    rw [List.foldl_cons]
    have hstep := applyTilespecs_fl_change dim isSolid ws true specs p.1 hp
      (hne specs (List.mem_cons_self _ _)) x y
    have hp' := applyTilespecs_patInv dim isSolid ws true specs p.1 hp
      (hpos specs (List.mem_cons_self _ _)) (hne specs (List.mem_cons_self _ _))
    have hrest := ih (fun s2 h => hpos s2 (List.mem_cons_of_mem _ h))
      (fun s2 h => hne s2 (List.mem_cons_of_mem _ h))
      (iterStep dim isSolid ws true p specs) hp' x y
    have hfl1 : (iterStep dim isSolid ws true p specs).1.fl =
        (applyTilespecs dim isSolid ws true specs p.1).1.fl := rfl
    rw [hfl1] at hrest
    simp only [Interesting, if_pos] at hstep
    rcases hrest with h1 | ⟨h1, h2⟩
    · rw [h1]
      rcases hstep with h3 | ⟨h3, h4⟩
      · exact Or.inl h3
      · exact Or.inr ⟨h3, h4⟩
    · rcases hstep with h3 | ⟨h3, h4⟩
      · rw [h3] at h1
        exact Or.inr ⟨h1, h2⟩
      · rw [h4] at h1
        exact absurd h1 (by norm_num)

theorem classifyLoop_fl_evol (dim : Nat) (isSolid ws : Bool)
    (tsls : List (List TileSpec))
    (hpos : ∀ l ∈ tsls, ∀ s ∈ l, PosSpec s)
    (hne : ∀ l ∈ tsls, l ≠ []) (fuel : Nat) :
    ∀ st0 st1 : ClsState, PatInv dim true st0 →
      classifyLoop dim isSolid ws true tsls fuel st0 = some st1 →
      ∀ x y, st1.fl x y = st0.fl x y ∨
        (st0.fl x y = 0 ∧ st1.fl x y = 0xFE) := by
  induction fuel with
  | zero =>
    intro st0 st1 _ h
    exact absurd h (by simp [classifyLoop])
  | succ f ih =>
    intro st0 st1 hinv h
    unfold classifyLoop at h
    have hiterFl := iterFold_fl_evol dim isSolid ws tsls hpos hne
      (st0, 0) hinv
    by_cases hz : (classifyIter dim isSolid ws true tsls st0).2 = 0
    · rw [if_pos hz] at h
      intro x y
      rw [← Option.some.inj h]
      exact hiterFl x y
    · rw [if_neg hz] at h
      intro x y
      have hnext := ih _ st1
        (iterFold_patInv dim isSolid ws true tsls hpos hne (st0, 0) hinv) h x y
      rcases hnext with h1 | ⟨h1, h2⟩
      · rw [h1]
        exact hiterFl x y
      · rcases hiterFl x y with h3 | ⟨h3, h4⟩
        · rw [h3] at h1
          exact Or.inr ⟨h1, h2⟩
        · rw [h4] at h1
          exact absurd h1 (by norm_num)

theorem solidTsls_pos : ∀ l ∈ solidTsls, ∀ s ∈ l, PosSpec s := by
  intro l hl s hs
  simp only [solidTsls, List.mem_cons, List.not_mem_nil, or_false] at hl
  rcases hl with rfl | rfl
  · simp only [List.mem_cons, List.not_mem_nil, or_false] at hs
    subst hs
    intro nh t hres
    have hres2 : (if (nh 0 1 = false ∧ nh 2 1 = false) ∨
        (nh 1 0 = false ∧ nh 1 2 = false) then SpecResult.boolRes true
        else SpecResult.boolRes false) = SpecResult.ttRes t := hres
    split at hres2 <;> simp at hres2
  · simp only [List.mem_cons, List.not_mem_nil, or_false] at hs
    rcases hs with rfl | rfl | rfl <;>
      simp [PosSpec, tsConcave, tsConvex, tsStraightSolid]

theorem solidTsls_ne : ∀ l ∈ solidTsls, l ≠ [] := by
  intro l hl
  simp only [solidTsls, List.mem_cons, List.not_mem_nil, or_false] at hl
  rcases hl with rfl | rfl <;> simp

/-- C3 (amended): in the final sea layer grid — after `SeaLayer.generate`
thresholds the heightmap, labels the sea segments, filters those smaller
than `MIN_SEA_SIZE`, and the reversed solid classifier runs — every
positive value other than the removed-tile marker `0xFE` that is present
in the grid covers at least `MIN_SEA_SIZE` cells.  The spec's claim over
all positive values is false: `_apply_tilespecs` writes the marker
`0xFE` into the layer matrix at removed sliver cells, and those can
number fewer than `MIN_SEA_SIZE`. -/
theorem sea_layer_min_size (dim : Nat) (hm : Grid) (fuel : Nat)
    (st : ClsState) (hrun : seaLayerGenerate dim hm fuel = some st)
    (v : Nat) (hv : 0 < v) (hvfe : v ≠ 0xFE)
    (hpres : ∃ x, x < dim ∧ ∃ y, y < dim ∧ st.fl x y = v) :
    MIN_SEA_SIZE ≤ countVal dim st.fl v := by
  have hlab := labelSegments_le dim (seaThresholdGrid dim hm)
  set L0 : Grid := (labelSegments dim (seaThresholdGrid dim hm)).1 with hL0
  set nL : Nat := (labelSegments dim (seaThresholdGrid dim hm)).2 with hnL
  have hLdef : (labelMatrixSegments dim (seaThresholdGrid dim hm)
      MIN_SEA_SIZE).1 = filterSmall dim L0 nL MIN_SEA_SIZE := by
    show (if 0 < MIN_SEA_SIZE then
        filterSmall dim (labelSegments dim (seaThresholdGrid dim hm)).1
          (labelSegments dim (seaThresholdGrid dim hm)).2 MIN_SEA_SIZE
      else (labelSegments dim (seaThresholdGrid dim hm)).1) =
      filterSmall dim L0 nL MIN_SEA_SIZE
    rw [if_pos (by norm_num [MIN_SEA_SIZE])]
  set L : Grid := filterSmall dim L0 nL MIN_SEA_SIZE with hL
  have hevol : ∀ x y, st.fl x y = L x y ∨ (L x y = 0 ∧ st.fl x y = 0xFE) := by
    have h := classifyLoop_fl_evol dim true true solidTsls solidTsls_pos
      solidTsls_ne fuel ⟨initClsMatrix dim true L, L⟩ st
      (initClsMatrix_patInv dim true L) ?_
    · exact h
    · unfold seaLayerGenerate classify at hrun
      rw [hLdef] at hrun
      exact hrun
  have hiff : ∀ x y, x < dim → y < dim → (st.fl x y = v ↔ L x y = v) := by
    intro x y _ _
    rcases hevol x y with h | ⟨h1, h2⟩
    · rw [h]
    · rw [h1, h2]
      constructor
      · intro h3
        exact absurd h3.symm hvfe
      · intro h3
        omega
  have hcnt : countVal dim st.fl v = countVal dim L v :=
    countVal_congr dim v hiff
  rw [hcnt]
  obtain ⟨x, hx, y, hy, hxy⟩ := hpres
  have hLv : L x y = v := (hiff x y hx hy).mp hxy
  have hvle : v ≤ nL := by
    have hz : L x y = L0 x y ∨ L x y = 0 :=
      filterSmall_eq_or_zero dim L0 nL MIN_SEA_SIZE x y
    rcases hz with hz | hz
    · rw [hLv] at hz
      rw [hz]
      exact hlab x y
    · rw [hz] at hLv
      omega
  rcases filterSmall_big_or_absent dim L0 MIN_SEA_SIZE nL v hv hvle with
    hbig | habs
  · exact hbig
  · exact absurd hLv (habs x y hx hy)

/-- All-sea 6×6 heightmap: one sea segment of 36 cells. -/
def c3whm : Grid := fun _ _ => 0

def c3wrun : Option ClsState := seaLayerGenerate 6 c3whm 3

def c3wst : ClsState := c3wrun.getD ⟨fun _ _ => 0, fun _ _ => 0⟩

set_option maxRecDepth 40000 in
set_option maxHeartbeats 4000000 in
theorem sea_layer_min_size_witness :
    c3wrun = some c3wst ∧ 0 < 1 ∧ (1 : Nat) ≠ 0xFE ∧
      (∃ x, x < 6 ∧ ∃ y, y < 6 ∧ c3wst.fl x y = 1) ∧
      MIN_SEA_SIZE ≤ countVal 6 c3wst.fl 1 := by
  have hrun : c3wrun = some c3wst := by with_unfolding_all rfl
  have hp : ∃ x, x < 6 ∧ ∃ y, y < 6 ∧ c3wst.fl x y = 1 :=
    ⟨0, by norm_num, 0, by norm_num, by with_unfolding_all rfl⟩
  exact ⟨hrun, by norm_num, by norm_num, hp,
    sea_layer_min_size 6 c3whm 3 c3wst hrun 1 (by norm_num) (by norm_num) hp⟩

/-- 6×6 heightmap that is sea everywhere except a single land cell at
`(3, 3)`: the sea segment (35 cells) survives the minimum-size filter,
and the lone land cell is a sliver the classifier removes by writing the
marker `0xFE = 254` into the layer matrix. -/
def c3hm : Grid := fun x y => if x = 3 ∧ y = 3 then 200 else 0

def c3run : Option ClsState := seaLayerGenerate 6 c3hm 4

def c3st : ClsState := c3run.getD ⟨fun _ _ => 0, fun _ _ => 0⟩

set_option maxRecDepth 40000 in
set_option maxHeartbeats 4000000 in
/-- C3, spec sentence as written: refuted.  In the final sea layer grid
the positive value `254` (the classifier's removed-tile marker, not a
sea label) is present but covers a single cell, fewer than
`MIN_SEA_SIZE = 32`. -/
theorem sea_layer_claim_false :
    c3run = some c3st ∧
      0 < 254 ∧ (∃ x, x < 6 ∧ ∃ y, y < 6 ∧ c3st.fl x y = 254) ∧
      countVal 6 c3st.fl 254 < MIN_SEA_SIZE := by
  refine ⟨by with_unfolding_all rfl, by norm_num,
    ⟨3, by norm_num, 3, by norm_num, by with_unfolding_all rfl⟩,
    by with_unfolding_all decide⟩

/-! River layer (`RiverLayer` in `juice/terrainlayer.py`). -/

/-- Suitability test `RiverLayer._confirm_square_ok`: the position must
satisfy the predicate and at most `neighRiversThreshold` of its edge
neighbors may fail it.  With `allowOthers` the predicate is
`matrix ≠ river_id` (other river ids are ignored), otherwise the cell
must be empty. -/
def confirmSquareOk (dim : Nat) (m : Grid) (x y riverId : Nat)
    (neighRiversThreshold : Nat) (allowOthers : Bool) : Bool :=
  let pred : Nat → Nat → Bool := fun a b =>
    if allowOthers then decide (m a b ≠ riverId) else decide (m a b = 0)
  let nRiverNbrs :=
    ((edgeNeighbors dim x y).filter (fun c => ! pred c.1 c.2)).length
  pred x y && decide (nRiverNbrs ≤ neighRiversThreshold)

/-- Convergence test `RiverLayer._is_square_converging`: some edge
neighbor holds a nonzero river id different from `riverId`. -/
def isSquareConverging (dim : Nat) (m : Grid) (x y riverId : Nat) : Bool :=
  (edgeNeighbors dim x y).any
    (fun c => decide (0 < m c.1 c.2) && decide (m c.1 c.2 ≠ riverId))

/-- Cleanup of a failed river: `matrix[matrix == river_id] = 0`. -/
def eraseRiver (m : Grid) (riverId : Nat) : Grid :=
  fun a b => if m a b = riverId then 0 else m a b

/-- Step candidates collected by `foreach_edge_neighbor` +
`_confirm_square_ok` inside `_generate_river`. -/
def riverOkNeighbors (dim : Nat) (m : Grid) (x y riverId : Nat) :
    List Cell :=
  (edgeNeighbors dim x y).filter
    (fun c => confirmSquareOk dim m c.1 c.2 riverId 1 true)

/-- Abort conditions for the embedded river walk: the capacity guard of
`_generate_river` (a `ValueError` in the source), or exhaustion of the
loop fuel (the Python loop always terminates; fuel only bounds the
recursion in the embedding). -/
inductive RiverAbort where
  | capacity
  | fuel
deriving DecidableEq

/-- Main walk loop of `_generate_river`: terminate on sea or on
convergence (marking the cell), otherwise mark and move to the lowest
suitable neighbor (shuffle then stable-sort by height); with no suitable
neighbor erase the river and fail. -/
def generateRiverLoop (dim : Nat) (hm sm : Grid)
    (shuf : List Cell → List Cell) (riverId : Nat) :
    Nat → Grid → Nat → Nat → Except RiverAbort (Grid × Bool)
  | 0, _, _, _ => .error .fuel
  | fuel + 1, m, x, y =>
    if 0 < sm x y then .ok (mset m x y riverId, true)
    else if isSquareConverging dim m x y riverId then
      .ok (mset m x y riverId, true)
    else
      let m1 := mset m x y riverId
      let ok := (shuf (riverOkNeighbors dim m1 x y riverId)).mergeSort
        (fun a b => decide (hm a.1 a.2 ≤ hm b.1 b.2))
      match ok with
      | [] => .ok (eraseRiver m1 riverId, false)
      | p :: _ => generateRiverLoop dim hm sm shuf riverId fuel m1 p.1 p.2

/-- Itemsize of the river matrix dtype: `_init_matrix` allocates
`np.uint8`, whose itemsize is one byte. -/
def RIVER_ITEMSIZE : Nat := 1

/-- Embedding of `RiverLayer._generate_river`: start-validity check,
capacity guard (`river_id` must fit the matrix dtype), then the walk. -/
def generateRiver (dim : Nat) (hm sm : Grid) (shuf : List Cell → List Cell)
    (itemsize : Nat) (m : Grid) (x y riverId fuel : Nat) :
    Except RiverAbort (Grid × Bool) :=
  if ¬ confirmSquareOk dim m x y riverId 0 false then .ok (m, false)
  else if 2 ^ (itemsize * 8) ≤ riverId then .error .capacity
  else generateRiverLoop dim hm sm shuf riverId fuel m x y

/-- Mountain coordinates `np.where(hmatrix >= mthr)` in row-major order,
as game-coordinate `(x, y)` pairs. -/
def mountainCoords (dim : Nat) (hm : Grid) : List Cell :=
  (List.range dim).flatMap (fun y =>
    (List.range dim).filterMap (fun x =>
      if MOUNTAIN_THRESHOLD ≤ hm x y then some (x, y) else none))

/-- Number of river sources picked in `RiverLayer.generate` from `count`
mountain cells: `int(count * RIVER_DENSITY)`, raised to
`min(count, MIN_RIVER_SOURCES)` when below the minimum. -/
def nRiverTiles (count : Nat) : Nat :=
  let n := (⌊(count : ℚ) * RIVER_DENSITY⌋).toNat
  if n < MIN_RIVER_SOURCES then min count MIN_RIVER_SOURCES else n

/-- River sources: shuffle the mountain coordinates and take the first
`nRiverTiles` of them (empty when there are no mountain cells). -/
def riverSources (dim : Nat) (hm : Grid)
    (shufM : List Cell → List Cell) : List Cell :=
  let mtn := mountainCoords dim hm
  if mtn.length ≠ 0 then (shufM mtn).take (nRiverTiles mtn.length)
  else mtn

/-- Source loop of `RiverLayer.generate`: walk each source with river ids
enumerated from 1, stopping after id 255.  Returns the river matrix and
the list of ids passed to `_generate_river`. -/
def riverGenLoop (dim : Nat) (hm sm : Grid)
    (shuf : List Cell → List Cell) (fuel : Nat) :
    List Cell → Nat → Grid → List Nat → Except RiverAbort (Grid × List Nat)
  | [], _, m, ids => .ok (m, ids.reverse)
  | p :: rest, i, m, ids =>
    if 255 < i then .ok (m, ids.reverse)
    else
      match generateRiver dim hm sm shuf RIVER_ITEMSIZE m p.1 p.2 i fuel with
      | .error e => .error e
      | .ok (m1, _) =>
        riverGenLoop dim hm sm shuf fuel rest (i + 1) m1 (i :: ids)

/-- Embedding of `RiverLayer.generate`: pick sources, then generate a
river per source. -/
def riverLayerGenerate (dim : Nat) (hm sm : Grid)
    (shufM shuf : List Cell → List Cell) (fuel : Nat) :
    Except RiverAbort (Grid × List Nat) :=
  riverGenLoop dim hm sm shuf fuel (riverSources dim hm shufM) 1
    (fun _ _ => 0) []

theorem generateRiverLoop_ne_capacity (dim : Nat) (hm sm : Grid)
    (shuf : List Cell → List Cell) (riverId fuel : Nat) (m : Grid)
    (x y : Nat) :
    generateRiverLoop dim hm sm shuf riverId fuel m x y ≠
      .error .capacity := by
  induction fuel generalizing m x y with
  | zero => simp [generateRiverLoop]
  | succ f ih =>
    simp only [generateRiverLoop]
    split
    · simp
    · split
      · simp
      · split
        · simp
        · exact ih _ _ _

/-- C7 (amended): inside the river walk (`neigh_rivers_threshold = 1`,
`allow_others = True`) a position is accepted as a step candidate iff its
value differs from `river_id` and at most one of its own 4-neighbors
holds the SAME id `river_id`; neighbors holding other river ids are
ignored. -/
theorem confirmSquareOk_step_iff (dim : Nat) (m : Grid)
    (x y riverId : Nat) :
    confirmSquareOk dim m x y riverId 1 true = true ↔
      (m x y ≠ riverId ∧
        ((edgeNeighbors dim x y).filter
          (fun c => decide (m c.1 c.2 = riverId))).length ≤ 1) := by
  simp only [confirmSquareOk, if_true, ne_eq, decide_not, Bool.not_not,
    Bool.and_eq_true, decide_eq_true_eq, Bool.not_eq_true',
    decide_eq_false_iff_not]

/-- Concrete matrix for the C7 counterexample: two cells of river id 2
edge-adjacent to the empty candidate cell `(2, 1)`. -/
def c7m : Grid := fun a b =>
  if (a = 2 ∧ b = 0) ∨ (a = 3 ∧ b = 1) then 2 else 0

/-- C7 counterexample: walking river id 1, the candidate `(2, 1)` is
accepted by `_confirm_square_ok` although two of its own 4-neighbors hold
a (different-id) river cell, refuting the claim's "any nonzero river id"
condition. -/
theorem confirmSquareOk_claim_false :
    confirmSquareOk 4 c7m 2 1 1 1 true = true ∧
      ¬(c7m 2 1 ≠ 1 ∧
        ((edgeNeighbors 4 2 1).filter
          (fun c => decide (c7m c.1 c.2 ≠ 0))).length ≤ 1) := by
  decide

/-! Layer generation wrapper (`TerrainLayer._check_requirements`). -/

/-- Error raised by a layer's requirement check or by its generator. -/
inductive LayerError (ε : Type) where
  | requirementError
  | generateError (e : ε)
deriving DecidableEq

/-- Embedding of `TerrainLayer._check_requirements`: raise
`RequirementError` when some required layer has no generated matrix
(leaving this layer's matrix untouched); otherwise run the wrapped
generator, and if it raises, set `self.matrix = None` and re-raise.  A
generator is modelled by the matrix state it leaves behind (possibly
partial) together with an optional raised exception. -/
def checkRequirements {ε : Type} (reqMatrices : List (Option Grid))
    (gen : Option Grid → Option Grid × Option ε) (matrix : Option Grid) :
    Option Grid × Option (LayerError ε) :=
  if reqMatrices.any (fun r => r.isNone) then
    (matrix, some .requirementError)
  else
    match gen matrix with
    | (m1, none) => (m1, none)
    | (_, some e) => (none, some (.generateError e))

/-- C8 (amended): when the wrapped generate raises, the exception
propagates and the layer's matrix is invalidated to `None` (no matrix at
all) rather than retaining partial contents. -/
theorem checkRequirements_invalidates {ε : Type}
    (reqMatrices : List (Option Grid))
    (gen : Option Grid → Option Grid × Option ε) (st m1 : Option Grid)
    (e : ε) (hreq : ∀ r ∈ reqMatrices, r.isSome)
    (hgen : gen st = (m1, some e)) :
    checkRequirements reqMatrices gen st =
      (none, some (.generateError e)) := by
  have hnone : ¬(reqMatrices.any (fun r => r.isNone) = true) := by
    rw [List.any_eq_true]
    rintro ⟨r, hr, hfr⟩
    rw [Option.isNone_iff_eq_none] at hfr
    have h2 := hreq r hr
    rw [hfr] at h2
    simp at h2
  unfold checkRequirements
  rw [if_neg hnone, hgen]

/-- Generator that leaves partial matrix contents and raises, used in the
C8 counterexample. -/
def c8gen : Option Grid → Option Grid × Option Unit :=
  fun _ => (some (fun _ _ => 5), some ())

/-- C8 counterexample: after a failing generate the layer's matrix is
`None`, not an all-zero matrix as claimed. -/
theorem checkRequirements_claim_false :
    ¬((checkRequirements [] c8gen (some (fun _ _ => 0))).1 =
        some (fun _ _ => 0)) := by
  intro h
  simp [checkRequirements, c8gen] at h

/-- Witness for `checkRequirements_invalidates`. -/
theorem checkRequirements_invalidates_witness :
    checkRequirements [] c8gen (some (fun _ _ => 0)) =
      (none, some (.generateError ())) :=
  checkRequirements_invalidates [] c8gen (some (fun _ _ => 0))
    (some (fun _ _ => 5)) () (by simp) rfl

theorem riverGenLoop_ids_bounded (dim : Nat) (hm sm : Grid)
    (shuf : List Cell → List Cell) (fuel : Nat) (sources : List Cell) :
    ∀ (i : Nat) (m0 : Grid) (acc : List Nat), 1 ≤ i →
      (∀ j ∈ acc, 1 ≤ j ∧ j ≤ 255) →
      ∀ m ids, riverGenLoop dim hm sm shuf fuel sources i m0 acc =
        .ok (m, ids) → ∀ j ∈ ids, 1 ≤ j ∧ j ≤ 255 := by
  induction sources with
  | nil =>
    intro i m0 acc hi hacc m ids hrun j hj
    simp only [riverGenLoop, Except.ok.injEq, Prod.mk.injEq] at hrun
    obtain ⟨-, h2⟩ := hrun
    rw [← h2] at hj
    exact hacc j (List.mem_reverse.mp hj)
  | cons p rest ih =>
    intro i m0 acc hi hacc m ids hrun j hj
    simp only [riverGenLoop] at hrun
    by_cases hbreak : 255 < i
    · rw [if_pos hbreak] at hrun
      simp only [Except.ok.injEq, Prod.mk.injEq] at hrun
      obtain ⟨-, h2⟩ := hrun
      rw [← h2] at hj
      exact hacc j (List.mem_reverse.mp hj)
    · rw [if_neg hbreak] at hrun
      cases hgen : generateRiver dim hm sm shuf RIVER_ITEMSIZE m0 p.1 p.2
          i fuel with
      | error e => rw [hgen] at hrun; exact absurd hrun (by simp)
      | ok v =>
        obtain ⟨m1, b⟩ := v
        rw [hgen] at hrun
        exact ih (i + 1) m1 (i :: acc) (by omega)
          (by
            intro j hj
            rcases List.mem_cons.mp hj with h | h
            · omega
            · exact hacc j h)
          m ids hrun j hj

/-- C6 (amended): with at least one mountain cell, the number of river
sources selected equals
`min(count, max(MIN_RIVER_SOURCES, ⌊count · RIVER_DENSITY⌋))` — the code
caps the minimum at the number of available mountain cells — and every
river id handed to `_generate_river` lies in `1..255`, so at most 255
river ids are ever assigned. -/
theorem river_sources_spec (dim : Nat) (hm sm : Grid)
    (shufM shuf : List Cell → List Cell) (fuel : Nat)
    (hperm : ∀ l : List Cell, (shufM l).Perm l)
    (hmtn : (mountainCoords dim hm).length ≠ 0) :
    (riverSources dim hm shufM).length =
      min (mountainCoords dim hm).length
        (max MIN_RIVER_SOURCES
          (⌊((mountainCoords dim hm).length : ℚ) * RIVER_DENSITY⌋).toNat) ∧
    (∀ m ids, riverLayerGenerate dim hm sm shufM shuf fuel = .ok (m, ids) →
      ∀ j ∈ ids, 1 ≤ j ∧ j ≤ 255) := by
  constructor
  · unfold riverSources
    rw [if_pos hmtn, List.length_take, (hperm _).length_eq]
    unfold nRiverTiles MIN_RIVER_SOURCES
    set c := (mountainCoords dim hm).length
    set F := (⌊(c : ℚ) * RIVER_DENSITY⌋).toNat
    by_cases hF : F < 4
    · rw [if_pos hF]; omega
    · rw [if_neg hF]; omega
  · intro m ids hrun
    exact riverGenLoop_ids_bounded dim hm sm shuf fuel _ 1 _ []
      (le_refl 1) (by simp) m ids hrun

/-- Heightmap with exactly two mountain cells, for C6. -/
def c6hm : Grid := fun x _ => if x = 0 then 200 else 0

/-- C6 counterexample: with 2 mountain cells the code selects 2 river
sources, but `max(MIN_RIVER_SOURCES, ⌊count · RIVER_DENSITY⌋) = 4`: the
claimed count formula fails when fewer mountain cells exist than
`MIN_RIVER_SOURCES`. -/
theorem river_sources_claim_false :
    (riverSources 2 c6hm id).length = 2 ∧
      max MIN_RIVER_SOURCES
        (⌊((mountainCoords 2 c6hm).length : ℚ) * RIVER_DENSITY⌋).toNat = 4 ∧
      (2 : Nat) ≠ 4 := by
  refine ⟨by with_unfolding_all decide, by with_unfolding_all decide,
    by decide⟩

/-- Witness for `river_sources_spec` on a concrete two-mountain map. -/
theorem river_sources_spec_witness :
    (mountainCoords 2 c6hm).length ≠ 0 ∧
      (riverSources 2 c6hm id).length =
        min (mountainCoords 2 c6hm).length
          (max MIN_RIVER_SOURCES
            (⌊((mountainCoords 2 c6hm).length : ℚ) * RIVER_DENSITY⌋).toNat) :=
  ⟨by decide,
    (river_sources_spec 2 c6hm (fun _ _ => 0) id id 5
      (fun l => List.Perm.refl l) (by decide)).1⟩

/-! Heightmap (`juice/heightmap.py`): diamond-square with post-processing. -/

/-- Random source: an oracle stream of integers consumed one draw at a
time. -/
abbrev Rng := Nat → Int

/-- Contract of Python's `random.randint`: a value in `[lo, hi]`,
consuming one draw. -/
def randint (r : Rng) (k : Nat) (lo hi : Int) : Int × Nat :=
  (lo + r k % (hi - lo + 1), k + 1)

/-- Heightmap generation state: the `(dim+1)²` buffer and the rng draw
counter. -/
structure HState where
  m : Grid
  k : Nat

/-- Bounds of `Heightmap.INITIAL_RANGE = (0x40, 0xBF)`. -/
def INITIAL_RANGE_LO : Int := 0x40

def INITIAL_RANGE_HI : Int := 0xBF

/-- Embedding of `Heightmap._set_point_perturbed_value`: add a uniform
perturbation from `[-range//2, range//2]`, clamp into `[0, 255]`, store,
and return the stored value. -/
def setPointPerturbedValue (r : Rng) (st : HState) (x y : Nat) (val : Int)
    (prange : Nat) : HState × Int :=
  let halfRange : Nat := prange / 2
  let (dv, k1) := randint r st.k (-(halfRange : Int)) (halfRange : Int)
  let v := val + dv
  let v := if v < 0 then 0 else if 255 < v then 255 else v
  (⟨mset st.m x y v.toNat, k1⟩, v)

/-- Embedding of `Heightmap._set_square_average`: perturbed mean of the
four square corners written to the midpoint; in fill mode the whole
square interior is overwritten with that value. -/
def setSquareAverage (r : Rng) (squareDim rrange : Nat) (fill : Bool)
    (st : HState) (x y : Nat) : HState :=
  let p1 := st.m x y
  let p2 := st.m (x + squareDim - 1) y
  let p3 := st.m x (y + squareDim - 1)
  let p4 := st.m (x + squareDim - 1) (y + squareDim - 1)
  let avg : Nat := (p1 + p2 + p3 + p4) / 4
  let midpoint := (squareDim - 1) / 2
  let res := setPointPerturbedValue r st (x + midpoint) (y + midpoint)
    (avg : Int) rrange
  if fill then
    ⟨fun a b =>
      if x ≤ a ∧ a < x + squareDim - 1 ∧ y ≤ b ∧ b < y + squareDim - 1 then
        res.2.toNat
      else res.1.m a b,
      res.1.k⟩
  else res.1

/-- Embedding of `Heightmap._set_diamond_average`: perturbed mean of the
in-buffer diamond neighbors at distance `halfsquare` (the buffer has
valid indices `0..dim`; out-of-range coordinates contribute nothing). -/
def setDiamondAverage (r : Rng) (dim : Nat) (st : HState)
    (x y halfsquare rrange : Nat) : HState :=
  let coords : List (Int × Int) :=
    [((x : Int), (y : Int) - (halfsquare : Int)),
     ((x : Int) + (halfsquare : Int), (y : Int)),
     ((x : Int), (y : Int) + (halfsquare : Int)),
     ((x : Int) - (halfsquare : Int), (y : Int))]
  let valid := coords.filterMap (fun p =>
    if 0 ≤ p.1 ∧ 0 ≤ p.2 ∧ p.1 ≤ (dim : Int) ∧ p.2 ≤ (dim : Int) then
      some (p.1.toNat, p.2.toNat)
    else none)
  let total : Nat := (valid.map (fun p => st.m p.1 p.2)).sum
  let nval := valid.length
  (setPointPerturbedValue r st x y ((total / nval : Nat) : Int) rrange).1

/-- Embedding of `Heightmap._set_diamond_averages`: the four edge
midpoints of a square. -/
def setDiamondAverages (r : Rng) (dim : Nat) (st : HState)
    (x y squareDim rrange : Nat) : HState :=
  let midpoint := (squareDim - 1) / 2
  let st1 := setDiamondAverage r dim st (x + midpoint) y midpoint rrange
  let st2 := setDiamondAverage r dim st1 (x + squareDim - 1) (y + midpoint)
    midpoint rrange
  let st3 := setDiamondAverage r dim st2 (x + midpoint) (y + squareDim - 1)
    midpoint rrange
  setDiamondAverage r dim st3 x (y + midpoint) midpoint rrange

/-- Offsets `0, step, 2·step, …` while `< dim` of the nested while loops
in `_approximate_to_squaredim`. -/
def squareOffsets (dim step : Nat) : List Nat :=
  (List.range ((dim + step - 1) / step)).map (· * step)

/-- Embedding of `Heightmap._approximate_to_squaredim`. -/
def approximateToSquaredim (r : Rng) (dim squareDim rrange : Nat)
    (fill : Bool) (st : HState) : HState :=
  let step := squareDim - 1
  (squareOffsets dim step).foldl (fun st0 y =>
    (squareOffsets dim step).foldl (fun st1 x =>
      let st2 := setSquareAverage r squareDim rrange fill st1 x y
      if fill then st2
      else setDiamondAverages r dim st2 x y squareDim rrange) st0) st

/-- Main diamond-square loop of `Heightmap.generate` with its square-side
and perturbation-range schedule (`square_dim ← square_dim // 2 + 1`,
`rand_range ← rand_range − int(rand_range · peturb_decrease)`, decrease
in `[0, 1)` truncating toward zero).  Fuel bounds the recursion only. -/
def dsLoop (r : Rng) (dim minSquareDim : Nat) (pdec : ℚ) :
    Nat → Nat → Nat → HState → HState × Nat × Nat
  | 0, squareDim, rrange, st => (st, squareDim, rrange)
  | fuel + 1, squareDim, rrange, st =>
    if minSquareDim < squareDim then
      let st1 := approximateToSquaredim r dim squareDim rrange false st
      dsLoop r dim minSquareDim pdec fuel (squareDim / 2 + 1)
        (rrange - (⌊(rrange : ℚ) * pdec⌋).toNat) st1
    else (st, squareDim, rrange)

/-- Embedding of `Heightmap.generate` up to (excluding) the level
stretch: corner initialization, the diamond-square loop, and the final
fill pass when the loop stopped early.  Returns the buffer (read only on
`0..dim-1` afterwards, matching the `t[0:dim, 0:dim]` slice) and the rng
counter. -/
def hmGenerateRaw (dim minCellSize prange : Nat) (pdec : ℚ) (r : Rng) :
    Grid × Nat :=
  let minSquareDim := max (minCellSize + 1) 2
  let squareDim := dim + 1
  let (c1, k1) := randint r 0 INITIAL_RANGE_LO INITIAL_RANGE_HI
  let (c2, k2) := randint r k1 INITIAL_RANGE_LO INITIAL_RANGE_HI
  let (c3, k3) := randint r k2 INITIAL_RANGE_LO INITIAL_RANGE_HI
  let (c4, k4) := randint r k3 INITIAL_RANGE_LO INITIAL_RANGE_HI
  let m0 := mset (mset (mset (mset (fun _ _ => 0) 0 0 c1.toNat)
    0 dim c2.toNat) dim 0 c3.toNat) dim dim c4.toNat
  let res := dsLoop r dim minSquareDim pdec (dim + 2) squareDim prange
    ⟨m0, k4⟩
  let stF := res.1
  let sdF := res.2.1
  let rrF := res.2.2
  let stG := if 2 < sdF then approximateToSquaredim r dim sdF rrF true stF
    else stF
  (stG.m, stG.k)

/-- Cell values of the `dim × dim` matrix, in the scan order of
`_stretch_levels`. -/
def matVals (dim : Nat) (m : Grid) : List Nat :=
  (List.range dim).flatMap (fun x => (List.range dim).map (fun y => m x y))

/-- Maximum cell value of the `dim × dim` matrix, starting from the
source's initial accumulator `maxv = 0`. -/
def matMax (dim : Nat) (m : Grid) : Nat :=
  (matVals dim m).foldl max 0

/-- Minimum cell value of the `dim × dim` matrix, starting from the
source's initial accumulator `minv = 255`. -/
def matMin (dim : Nat) (m : Grid) : Nat :=
  (matVals dim m).foldl min 255

/-- Round half to even, the tie rule of binary64 arithmetic. -/
def roundHalfEven (q : ℚ) : ℤ :=
  if q - (⌊q⌋ : ℚ) < 1 / 2 then ⌊q⌋
  else if (1 : ℚ) / 2 < q - (⌊q⌋ : ℚ) then ⌊q⌋ + 1
  else if ⌊q⌋ % 2 = 0 then ⌊q⌋ else ⌊q⌋ + 1

/-- Binary exponent `⌊log₂ q⌋` for the magnitude range `[1, 512)` that
the stretch produces (scales lie in `[1, 255]`, products below 256). -/
def exp2of (q : ℚ) : Nat :=
  if q < 2 then 0 else if q < 4 then 1 else if q < 8 then 2
  else if q < 16 then 3 else if q < 32 then 4 else if q < 64 then 5
  else if q < 128 then 6 else if q < 256 then 7 else 8

/-- Binary64 rounding of an exact value: round the significand to 53
bits, nearest with ties to even.  On the magnitudes the stretch
produces (zero or values in `[1, 512)`: no overflow, no subnormals)
this is exactly the IEEE double result of the source's float
operations. -/
def fl (q : ℚ) : ℚ :=
  if q = 0 then 0
  else
    (roundHalfEven (q * ((2 ^ (52 - exp2of q) : ℕ) : ℚ)) : ℚ) /
      ((2 ^ (52 - exp2of q) : ℕ) : ℚ)

/-- One stretched cell in binary64: the source computes
`scale = 255 / (maxv - minv)` (one rounded division) and
`int((v - minv) * scale)` (one rounded product, truncated toward
zero); `k = v - minv` and `d = maxv - minv` are exact small integers. -/
def stretchVal (k d : Nat) : Nat :=
  (⌊fl ((k : ℚ) * fl (255 / (d : ℚ)))⌋).toNat

/-- Embedding of `Heightmap._stretch_levels`: when the range is not
already full, rescale by the binary64 value of
`(v - minv) * (255 / (maxv - minv))` truncated to int and stored into
the uint8 matrix (`% 256`); a constant matrix with the stretch
condition met divides by zero, modelled as `none`. -/
def stretchLevels (dim : Nat) (m : Grid) : Option Grid :=
  let maxv := matMax dim m
  let minv := matMin dim m
  if 0 < minv ∨ maxv < 255 then
    if maxv = minv then none
    else
      some (fun x y =>
        if x < dim ∧ y < dim then
          stretchVal (m x y - minv) (maxv - minv) % 256
        else m x y)
  else some m

/-- Embedding of `Heightmap._apply_noise`: per-cell uniform noise in
`[v - nrange//2, v + nrange//2]` clamped to `[0, 255]`; a no-op when the
range is zero. -/
def applyNoise (dim noiseRange : Nat) (r : Rng) (k : Nat) (m : Grid) :
    Grid × Nat :=
  if noiseRange ≤ 0 then (m, k)
  else
    (List.range dim).foldl (fun acc x =>
      (List.range dim).foldl (fun acc2 y =>
        let halfRange := noiseRange / 2
        let v := acc2.1 x y
        let res := randint r acc2.2 ((v : Int) - (halfRange : Int))
          ((v : Int) + (halfRange : Int))
        (mset acc2.1 x y (max 0 (min res.1 255)).toNat, res.2)) acc)
      (m, k)

/-- Embedding of `Heightmap._apply_blur`: a no-op for non-positive sigma,
otherwise the external `scipy.ndimage` Gaussian filter (a parameter of
the embedding). -/
def applyBlur (blurSigma : ℚ) (blurExt : Grid → Grid) (m : Grid) : Grid :=
  if blurSigma ≤ 0 then m else blurExt m

/-- Embedding of `Heightmap.generate`: diamond-square, stretch, noise,
blur. -/
def hmGenerate (dim minCellSize prange : Nat) (pdec : ℚ) (noiseRange : Nat)
    (blurSigma : ℚ) (blurExt : Grid → Grid) (r : Rng) : Option Grid :=
  let raw := hmGenerateRaw dim minCellSize prange pdec r
  match stretchLevels dim raw.1 with
  | none => none
  | some m1 =>
    let m2 := (applyNoise dim noiseRange r raw.2 m1).1
    some (applyBlur blurSigma blurExt m2)

/-! Facts about the fold-based matrix minimum / maximum. -/

theorem foldl_max_init_le (l : List Nat) (i : Nat) : i ≤ l.foldl max i := by
  induction l generalizing i with
  | nil => exact le_refl i
  | cons a t ih => exact le_trans (le_max_left i a) (ih (max i a))

theorem foldl_max_le_of_mem {l : List Nat} {a : Nat} (i : Nat)
    (h : a ∈ l) : a ≤ l.foldl max i := by
  induction l generalizing i with
  | nil => cases h
  | cons b t ih =>
    rcases List.mem_cons.mp h with h1 | h1
    · subst h1
      exact le_trans (le_max_right i a) (foldl_max_init_le t (max i a))
    · exact ih (max i b) h1

theorem foldl_max_eq_or_mem (l : List Nat) (i : Nat) :
    l.foldl max i = i ∨ l.foldl max i ∈ l := by
  induction l generalizing i with
  | nil => exact Or.inl rfl
  | cons a t ih =>
    rw [List.foldl_cons]
    rcases ih (max i a) with h | h
    · rw [h]
      rcases max_choice i a with h1 | h1
      · exact Or.inl h1
      · exact Or.inr (by rw [h1]; exact List.mem_cons_self a t)
    · exact Or.inr (List.mem_cons_of_mem a h)

theorem foldl_min_init_ge (l : List Nat) (i : Nat) : l.foldl min i ≤ i := by
  induction l generalizing i with
  | nil => exact le_refl i
  | cons a t ih => exact le_trans (ih (min i a)) (min_le_left i a)

theorem foldl_min_le_of_mem {l : List Nat} {a : Nat} (i : Nat)
    (h : a ∈ l) : l.foldl min i ≤ a := by
  induction l generalizing i with
  | nil => cases h
  | cons b t ih =>
    rcases List.mem_cons.mp h with h1 | h1
    · subst h1
      exact le_trans (foldl_min_init_ge t (min i a)) (min_le_right i a)
    · exact ih (min i b) h1

theorem foldl_min_eq_or_mem (l : List Nat) (i : Nat) :
    l.foldl min i = i ∨ l.foldl min i ∈ l := by
  induction l generalizing i with
  | nil => exact Or.inl rfl
  | cons a t ih =>
    rw [List.foldl_cons]
    rcases ih (min i a) with h | h
    · rw [h]
      rcases min_choice i a with h1 | h1
      · exact Or.inl h1
      · exact Or.inr (by rw [h1]; exact List.mem_cons_self a t)
    · exact Or.inr (List.mem_cons_of_mem a h)

theorem mem_matVals (dim : Nat) (m : Grid) (v : Nat) :
    v ∈ matVals dim m ↔ ∃ x, x < dim ∧ ∃ y, y < dim ∧ m x y = v := by
  simp only [matVals, List.mem_flatMap, List.mem_map, List.mem_range]

theorem matMin_le (dim : Nat) (m : Grid) {x y : Nat} (hx : x < dim)
    (hy : y < dim) : matMin dim m ≤ m x y :=
  foldl_min_le_of_mem 255 ((mem_matVals dim m (m x y)).mpr
    ⟨x, hx, y, hy, rfl⟩)

theorem le_matMax (dim : Nat) (m : Grid) {x y : Nat} (hx : x < dim)
    (hy : y < dim) : m x y ≤ matMax dim m :=
  foldl_max_le_of_mem 0 ((mem_matVals dim m (m x y)).mpr
    ⟨x, hx, y, hy, rfl⟩)

/-! Cell values written by the heightmap generator stay in `[0, 255]`. -/

/-- All cells at most 255. -/
def Bounded (m : Grid) : Prop := ∀ x y, m x y ≤ 255

theorem randint_mem (r : Rng) (k : Nat) (lo hi : Int) (h : lo ≤ hi) :
    lo ≤ (randint r k lo hi).1 ∧ (randint r k lo hi).1 ≤ hi := by
  unfold randint
  have hpos : 0 < hi - lo + 1 := by omega
  have h1 := Int.emod_nonneg (r k) (by omega : hi - lo + 1 ≠ 0)
  have h2 := Int.emod_lt_of_pos (r k) hpos
  constructor <;> simp only <;> omega

theorem mset_bounded {m : Grid} (hb : Bounded m) {x y v : Nat}
    (hv : v ≤ 255) : Bounded (mset m x y v) := by
  intro a b
  unfold mset
  split
  · exact hv
  · exact hb a b

theorem setPointPerturbedValue_bounded (r : Rng) {st : HState}
    (hb : Bounded st.m) (x y : Nat) (val : Int) (prange : Nat) :
    Bounded (setPointPerturbedValue r st x y val prange).1.m ∧
      0 ≤ (setPointPerturbedValue r st x y val prange).2 ∧
      (setPointPerturbedValue r st x y val prange).2 ≤ 255 := by
  unfold setPointPerturbedValue
  simp only
  set v := val + (randint r st.k (-((prange / 2 : Nat) : Int))
    ((prange / 2 : Nat) : Int)).1 with hv
  have hcl : 0 ≤ (if v < 0 then 0 else if 255 < v then 255 else v) ∧
      (if v < 0 then 0 else if 255 < v then 255 else v) ≤ 255 := by
    split
    · omega
    · split <;> omega
  refine ⟨mset_bounded hb ?_, hcl.1, hcl.2⟩
  omega

theorem setSquareAverage_bounded (r : Rng) (squareDim rrange : Nat)
    (fill : Bool) {st : HState} (hb : Bounded st.m) (x y : Nat) :
    Bounded (setSquareAverage r squareDim rrange fill st x y).m := by
  unfold setSquareAverage
  have h := setPointPerturbedValue_bounded r hb (x + (squareDim - 1) / 2)
    (y + (squareDim - 1) / 2)
    ((st.m x y + st.m (x + squareDim - 1) y + st.m x (y + squareDim - 1) +
      st.m (x + squareDim - 1) (y + squareDim - 1)) / 4 : Nat) rrange
  simp only
  split
  · intro a b
    simp only
    split
    · omega
    · exact h.1 a b
  · exact h.1

theorem setDiamondAverage_bounded (r : Rng) (dim : Nat) {st : HState}
    (hb : Bounded st.m) (x y halfsquare rrange : Nat) :
    Bounded (setDiamondAverage r dim st x y halfsquare rrange).m := by
  unfold setDiamondAverage
  exact (setPointPerturbedValue_bounded r hb x y _ rrange).1

theorem setDiamondAverages_bounded (r : Rng) (dim : Nat) {st : HState}
    (hb : Bounded st.m) (x y squareDim rrange : Nat) :
    Bounded (setDiamondAverages r dim st x y squareDim rrange).m := by
  unfold setDiamondAverages
  simp only
  exact setDiamondAverage_bounded r dim
    (setDiamondAverage_bounded r dim
      (setDiamondAverage_bounded r dim
        (setDiamondAverage_bounded r dim hb _ _ _ _) _ _ _ _) _ _ _ _) _ _ _ _

theorem foldl_bounded_preserve {α : Type} (f : HState → α → HState)
    (hf : ∀ st a, Bounded st.m → Bounded (f st a).m) (l : List α) :
    ∀ st : HState, Bounded st.m → Bounded ((l.foldl f st).m) := by
  induction l with
  | nil => intro st hb; exact hb
  | cons a t ih => intro st hb; exact ih _ (hf st a hb)

theorem approximateToSquaredim_bounded (r : Rng)
    (dim squareDim rrange : Nat) (fill : Bool) {st : HState}
    (hb : Bounded st.m) :
    Bounded (approximateToSquaredim r dim squareDim rrange fill st).m := by
  unfold approximateToSquaredim
  simp only
  apply foldl_bounded_preserve _ _ _ _ hb
  intro st0 a hb0
  apply foldl_bounded_preserve _ _ _ _ hb0
  intro st1 x hb1
  split
  · exact setSquareAverage_bounded r squareDim rrange fill hb1 x a
  · exact setDiamondAverages_bounded r dim
      (setSquareAverage_bounded r squareDim rrange fill hb1 x a)
      x a squareDim rrange

theorem dsLoop_bounded (r : Rng) (dim minSquareDim : Nat) (pdec : ℚ)
    (fuel : Nat) :
    ∀ (squareDim rrange : Nat) (st : HState), Bounded st.m →
      Bounded (dsLoop r dim minSquareDim pdec fuel squareDim rrange st).1.m := by
  induction fuel with
  | zero => intro sd rr st hb; exact hb
  | succ f ih =>
    intro sd rr st hb
    unfold dsLoop
    split
    · exact ih _ _ _ (approximateToSquaredim_bounded r dim sd rr false hb)
    · exact hb

theorem hmGenerateRaw_bounded (dim minCellSize prange : Nat) (pdec : ℚ)
    (r : Rng) : Bounded (hmGenerateRaw dim minCellSize prange pdec r).1 := by
  have hrange : ∀ k : Nat,
      (randint r k INITIAL_RANGE_LO INITIAL_RANGE_HI).1.toNat ≤ 255 := by
    intro k
    have h3 := randint_mem r k INITIAL_RANGE_LO INITIAL_RANGE_HI
      (by norm_num [INITIAL_RANGE_LO, INITIAL_RANGE_HI])
    have h4 : INITIAL_RANGE_HI = 191 := by norm_num [INITIAL_RANGE_HI]
    omega
  unfold hmGenerateRaw
  simp only
  split
  · apply approximateToSquaredim_bounded
    apply dsLoop_bounded
    exact mset_bounded (mset_bounded (mset_bounded
      (mset_bounded (fun _ _ => Nat.zero_le 255) (hrange 0))
      (hrange _)) (hrange _)) (hrange _)
  · apply dsLoop_bounded
    exact mset_bounded (mset_bounded (mset_bounded
      (mset_bounded (fun _ _ => Nat.zero_le 255) (hrange 0))
      (hrange _)) (hrange _)) (hrange _)

/-! Level stretch: range and attainment of the extrema. -/

/-- Two cells of the `dim × dim` matrix hold different values. -/
def Nonconstant (dim : Nat) (m : Grid) : Prop :=
  ∃ x1, x1 < dim ∧ ∃ y1, y1 < dim ∧ ∃ x2, x2 < dim ∧ ∃ y2, y2 < dim ∧
    m x1 y1 ≠ m x2 y2

theorem fl_zero : fl 0 = 0 := by
  unfold fl
  rw [if_pos rfl]

theorem stretchVal_zero (d : Nat) : stretchVal 0 d = 0 := by
  unfold stretchVal
  rw [Nat.cast_zero, zero_mul, fl_zero]
  simp

set_option maxRecDepth 40000 in
set_option maxHeartbeats 4000000 in
theorem stretchVal_top : ∀ d : Nat, d < 256 → 1 ≤ d →
    254 ≤ stretchVal d d ∧ stretchVal d d ≤ 255 := by
  with_unfolding_all decide

theorem stretchLevels_spec (dim : Nat) (m : Grid)
    (hb : ∀ x y, m x y ≤ 255) (M : Grid)
    (hs : stretchLevels dim m = some M) :
    (∀ x y, x < dim → y < dim → M x y ≤ 255) ∧
    (Nonconstant dim m →
      (∃ x, x < dim ∧ ∃ y, y < dim ∧ M x y = 0) ∧
      (∃ x, x < dim ∧ ∃ y, y < dim ∧ 254 ≤ M x y)) := by
  unfold stretchLevels at hs
  simp only at hs
  by_cases hcond : 0 < matMin dim m ∨ matMax dim m < 255
  · rw [if_pos hcond] at hs
    by_cases heq : matMax dim m = matMin dim m
    · rw [if_pos heq] at hs
      exact absurd hs (by simp)
    · rw [if_neg heq] at hs
      have hM := Option.some.inj hs
      constructor
      · intro x y hx hy
        rw [← hM]
        simp only [hx, hy, and_true, if_true, if_pos]
        have : stretchVal (m x y - matMin dim m)
            (matMax dim m - matMin dim m) % 256 < 256 :=
          Nat.mod_lt _ (by norm_num)
        omega
      · intro hnc
        obtain ⟨x1, hx1, y1, hy1, x2, hx2, y2, hy2, hne⟩ := hnc
        have hminmax : matMin dim m < matMax dim m := by
          rcases Nat.lt_or_ge (matMin dim m) (matMax dim m) with h | h
          · exact h
          · exfalso
            have l1 := matMin_le dim m hx1 hy1
            have l2 := le_matMax dim m hx1 hy1
            have l3 := matMin_le dim m hx2 hy2
            have l4 := le_matMax dim m hx2 hy2
            omega
        -- the minimum is attained and maps to 0
        have hminmem : matMin dim m ∈ matVals dim m := by
          rcases foldl_min_eq_or_mem (matVals dim m) 255 with h | h
          · exfalso
            have h255 : matMin dim m = 255 := h
            have hmaxmem : matMax dim m ∈ matVals dim m := by
              rcases foldl_max_eq_or_mem (matVals dim m) 0 with h2 | h2
              · exfalso
                have : matMax dim m = 0 := h2
                omega
              · exact h2
            obtain ⟨x, hx, y, hy, hv⟩ := (mem_matVals dim m _).mp hmaxmem
            have := hb x y
            omega
          · exact h
        have hmaxmem : matMax dim m ∈ matVals dim m := by
          rcases foldl_max_eq_or_mem (matVals dim m) 0 with h | h
          · exfalso
            have : matMax dim m = 0 := h
            omega
          · exact h
        obtain ⟨x0, hx0, y0, hy0, hv0⟩ := (mem_matVals dim m _).mp hminmem
        obtain ⟨x3, hx3, y3, hy3, hv3⟩ := (mem_matVals dim m _).mp hmaxmem
        constructor
        · refine ⟨x0, hx0, y0, hy0, ?_⟩
          rw [← hM]
          simp only [hx0, hy0, and_true, if_true, if_pos]
          rw [hv0, Nat.sub_self, stretchVal_zero]
        · refine ⟨x3, hx3, y3, hy3, ?_⟩
          rw [← hM]
          simp only [hx3, hy3, and_true, if_true, if_pos]
          rw [hv3]
          have hd1 : 1 ≤ matMax dim m - matMin dim m := by omega
          have hd256 : matMax dim m - matMin dim m < 256 := by
            have := hb x3 y3
            omega
          obtain ⟨h254, h255⟩ :=
            stretchVal_top (matMax dim m - matMin dim m) hd256 hd1
          rw [Nat.mod_eq_of_lt (by omega)]
          exact h254
  · rw [if_neg hcond] at hs
    have hM := Option.some.inj hs
    push_neg at hcond
    obtain ⟨hmin0, hmax255⟩ := hcond
    constructor
    · intro x y hx hy
      rw [← hM]
      exact hb x y
    · intro hnc
      have hmin0' : matMin dim m = 0 := by omega
      have hminmem : matMin dim m ∈ matVals dim m := by
        rcases foldl_min_eq_or_mem (matVals dim m) 255 with h | h
        · exfalso
          have : matMin dim m = 255 := h
          omega
        · exact h
      have hmaxmem : matMax dim m ∈ matVals dim m := by
        rcases foldl_max_eq_or_mem (matVals dim m) 0 with h | h
        · exfalso
          have h0 : matMax dim m = 0 := h
          omega
        · exact h
      obtain ⟨x0, hx0, y0, hy0, hv0⟩ := (mem_matVals dim m _).mp hminmem
      obtain ⟨x3, hx3, y3, hy3, hv3⟩ := (mem_matVals dim m _).mp hmaxmem
      have hmax255' : matMax dim m = 255 := by
        have := hb x3 y3
        omega
      constructor
      · exact ⟨x0, hx0, y0, hy0, by rw [← hM, hv0, hmin0']⟩
      · refine ⟨x3, hx3, y3, hy3, ?_⟩
        rw [← hM, hv3, hmax255']
        norm_num

/-- C5 (amended): for every power-of-two dimension and default
parameters (`noise_range = 0`, `blur_sigma = 0`), when
`Heightmap.generate` returns, every cell of the resulting `dim × dim`
matrix lies in `[0, 255]`, and unless the pre-stretch matrix is
constant the stretch leaves at least one cell equal to 0 and at least
one cell of value 254 or 255.  The spec's claim that the maximum always
lands on 255 is false: for 32 of the 255 possible pre-stretch ranges
(25, 29, 50, 100, …) the binary64 product `d * (255 / d)` falls just
below 255 and `int` truncates it to 254
(`heightmap_stretch_claim_false`). -/
theorem heightmap_generate_spec (kp : Nat) (r : Rng) (blurExt : Grid → Grid)
    (dim : Nat) (_hdim : dim = 2 ^ kp) (M : Grid)
    (hgen : hmGenerate dim 1 256 (35 / 100) 0 0 blurExt r = some M) :
    (∀ x y, x < dim → y < dim → M x y ≤ 255) ∧
    (Nonconstant dim (hmGenerateRaw dim 1 256 (35 / 100) r).1 →
      (∃ x, x < dim ∧ ∃ y, y < dim ∧ M x y = 0) ∧
      (∃ x, x < dim ∧ ∃ y, y < dim ∧ 254 ≤ M x y)) := by
  unfold hmGenerate at hgen
  simp only [applyNoise, applyBlur, le_refl, if_true, if_pos] at hgen
  cases hstr : stretchLevels dim (hmGenerateRaw dim 1 256 (35 / 100) r).1 with
  | none => rw [hstr] at hgen; exact absurd hgen (by simp)
  | some m1 =>
    rw [hstr] at hgen
    simp only [Option.some.injEq] at hgen
    have hspec := stretchLevels_spec dim _
      (hmGenerateRaw_bounded dim 1 256 (35 / 100) r) m1 hstr
    rw [← hgen]
    exact hspec

/-- Concrete random stream for the heightmap witness. -/
def c5rng : Rng := fun n => (n : Int)

/-- Result of `Heightmap.generate` at dimension 2 on `c5rng`. -/
def c5M : Grid := (hmGenerate 2 1 256 (35 / 100) 0 0 id c5rng).getD
  (fun _ _ => 0)

set_option maxRecDepth 40000 in
set_option maxHeartbeats 4000000 in
/-- Witness for `heightmap_generate_spec` at dimension `2 = 2¹` with a
concrete random stream whose pre-stretch matrix is nonconstant. -/
theorem heightmap_generate_spec_witness :
    Nonconstant 2 (hmGenerateRaw 2 1 256 (35 / 100) c5rng).1 ∧
      ((∃ x, x < 2 ∧ ∃ y, y < 2 ∧ c5M x y = 0) ∧
       (∃ x, x < 2 ∧ ∃ y, y < 2 ∧ 254 ≤ c5M x y)) := by
  have hnc : Nonconstant 2 (hmGenerateRaw 2 1 256 (35 / 100) c5rng).1 :=
    ⟨0, by norm_num, 0, by norm_num, 1, by norm_num, 1, by norm_num,
      by with_unfolding_all decide⟩
  exact ⟨hnc, (heightmap_generate_spec 1 c5rng id 2 (by norm_num) c5M
    (by with_unfolding_all rfl)).2 hnc⟩

/-- Random stream steering the corners to 100, the square midpoint to
125 and the diamond midpoints to 100: the pre-stretch matrix becomes
the nonconstant `{100, 100, 100, 125}` with range 25, one of the 32
ranges whose binary64 scale truncates the top level to 254. -/
def c5crng : Rng := fun k => if k < 4 then 36 else if k = 4 then 153
  else 120

def c5crun : Option Grid := hmGenerate 2 1 256 (35 / 100) 0 0 id c5crng

def c5cM : Grid := c5crun.getD (fun _ _ => 0)

set_option maxRecDepth 40000 in
set_option maxHeartbeats 4000000 in
/-- C5, spec sentence as written: refuted.  `Heightmap.generate`
returns, the pre-stretch matrix is nonconstant, yet no cell of the
returned matrix equals 255: the maximum cell carries
`int(25 * (255 / 25)) = 254`, because `255 / 25` rounds below `10.2`
in binary64. -/
theorem heightmap_stretch_claim_false :
    c5crun = some c5cM ∧
      Nonconstant 2 (hmGenerateRaw 2 1 256 (35 / 100) c5crng).1 ∧
      ∀ x, x < 2 → ∀ y, y < 2 → c5cM x y ≠ 255 := by
  refine ⟨by with_unfolding_all rfl,
    ⟨0, by norm_num, 0, by norm_num, 1, by norm_num, 1, by norm_num,
      by with_unfolding_all decide⟩,
    by with_unfolding_all decide⟩

/-! City layer separation pass (`CityLayer._remove_close_cities`). -/

/-- Nonzero coordinates of a grid in numpy row-major order
(`np.dstack(np.nonzero(matrix))[0]`), as game-coordinate `(x, y)`
pairs. -/
def nonzeroCoords (dim : Nat) (m : Grid) : List Cell :=
  (List.range dim).flatMap (fun y =>
    (List.range dim).filterMap (fun x =>
      if m x y ≠ 0 then some (x, y) else none))

/-- Distance threshold of the separation pass:
`min(terrain.dim // CITY_CLOSENESS_FACTOR, MAX_CITY_DISALLOW_RADIUS)`
(integer floor division). -/
def dThreshold (dim : Nat) : Nat :=
  min (dim / CITY_CLOSENESS_FACTOR) MAX_CITY_DISALLOW_RADIUS

/-- Inner body `check_and_remove` of the separation pass: clear the
destination city when source and destination differ, both are still set,
and their Euclidean distance is at most the threshold.  The source
compares `math.sqrt(dx² + dy²) > thr`; on integers this is exactly
`dx² + dy² > thr²`, the form used here (the `|Δ| > thr` band checks only
short-circuit the exact test). -/
def checkAndRemove (thr : Nat) (src dst : Cell) (m : Grid) : Grid :=
  if src.1 = dst.1 ∧ src.2 = dst.2 then m
  else if m dst.1 dst.2 = 0 ∨ m src.1 src.2 = 0 then m
  else if (thr : Int) < |(src.1 : Int) - (dst.1 : Int)| ∨
      (thr : Int) < |(src.2 : Int) - (dst.2 : Int)| then m
  else if (thr : Int) ^ 2 <
      ((src.1 : Int) - (dst.1 : Int)) ^ 2 +
      ((src.2 : Int) - (dst.2 : Int)) ^ 2 then m
  else mset m dst.1 dst.2 0

/-- Separation pass `CityLayer._remove_close_cities`: iterate over all
ordered pairs of the originally present city coordinates, clearing
destinations that are too close to a still-set source. -/
def removeCloseCities (dim : Nat) (m : Grid) : Grid :=
  let coords := nonzeroCoords dim m
  let thr := dThreshold dim
  coords.foldl (fun acc src =>
    coords.foldl (fun acc2 dst => checkAndRemove thr src dst acc2) acc) m

/-- Relation between grids where cells are either unchanged or zeroed. -/
def ZeroRel (m m1 : Grid) : Prop :=
  ∀ x y, m1 x y = m x y ∨ m1 x y = 0

theorem ZeroRel.refl (m : Grid) : ZeroRel m m := fun _ _ => Or.inl rfl

theorem ZeroRel.trans {m n k : Grid} (h1 : ZeroRel m n) (h2 : ZeroRel n k) :
    ZeroRel m k := by
  intro x y
  rcases h2 x y with h | h
  · rw [h]; exact h1 x y
  · exact Or.inr h

theorem ZeroRel.ne_zero {m n : Grid} (h : ZeroRel m n) {x y : Nat}
    (hn : n x y ≠ 0) : n x y = m x y := by
  rcases h x y with h1 | h1
  · exact h1
  · exact absurd h1 hn

theorem checkAndRemove_zeroRel (thr : Nat) (s d : Cell) (m : Grid) :
    ZeroRel m (checkAndRemove thr s d m) := by
  intro x y
  unfold checkAndRemove
  split
  · exact Or.inl rfl
  · split
    · exact Or.inl rfl
    · split
      · exact Or.inl rfl
      · split
        · exact Or.inl rfl
        · unfold mset
          split
          · exact Or.inr rfl
          · exact Or.inl rfl

theorem foldl_zeroRel {α : Type} (f : Grid → α → Grid)
    (hf : ∀ acc x, ZeroRel acc (f acc x)) (l : List α) (m : Grid) :
    ZeroRel m (l.foldl f m) := by
  induction l generalizing m with
  | nil => exact ZeroRel.refl m
  | cons a t ih => exact (hf m a).trans (ih (f m a))

theorem innerFold_zeroRel (thr : Nat) (src : Cell) (l : List Cell)
    (m : Grid) :
    ZeroRel m (l.foldl (fun acc2 dst => checkAndRemove thr src dst acc2) m) :=
  foldl_zeroRel _ (fun acc d => checkAndRemove_zeroRel thr src d acc) l m

theorem outerFold_zeroRel (thr : Nat) (coords l : List Cell) (m : Grid) :
    ZeroRel m (l.foldl (fun acc src =>
      coords.foldl (fun acc2 dst => checkAndRemove thr src dst acc2) acc) m) :=
  foldl_zeroRel _ (fun acc s => innerFold_zeroRel thr s coords acc) l m

theorem checkAndRemove_far (thr : Nat) (s d : Cell) (m : Grid)
    (hne : ¬(s.1 = d.1 ∧ s.2 = d.2))
    (hs : m s.1 s.2 ≠ 0) (hd : m d.1 d.2 ≠ 0)
    (hout : checkAndRemove thr s d m d.1 d.2 ≠ 0) :
    (thr : Int) ^ 2 <
      ((s.1 : Int) - (d.1 : Int)) ^ 2 + ((s.2 : Int) - (d.2 : Int)) ^ 2 := by
  by_contra hclose
  apply hout
  unfold checkAndRemove
  rw [if_neg hne, if_neg (by tauto), if_neg, if_neg hclose]
  · simp [mset]
  · push_neg
    push_neg at hclose
    constructor
    · nlinarith [sq_nonneg ((s.2 : Int) - (d.2 : Int)),
        abs_nonneg ((s.1 : Int) - (d.1 : Int)),
        sq_abs ((s.1 : Int) - (d.1 : Int))]
    · nlinarith [sq_nonneg ((s.1 : Int) - (d.1 : Int)),
        abs_nonneg ((s.2 : Int) - (d.2 : Int)),
        sq_abs ((s.2 : Int) - (d.2 : Int))]

theorem mem_nonzeroCoords (dim : Nat) (m : Grid) (c : Cell) :
    c ∈ nonzeroCoords dim m ↔ c.1 < dim ∧ c.2 < dim ∧ m c.1 c.2 ≠ 0 := by
  obtain ⟨x, y⟩ := c
  simp only [nonzeroCoords, List.mem_flatMap, List.mem_filterMap,
    List.mem_range]
  constructor
  · rintro ⟨b, hb, a, ha, hif⟩
    by_cases hz : m a b ≠ 0
    · rw [if_pos hz] at hif
      obtain ⟨h1, h2⟩ := Prod.mk.injEq .. ▸ Option.some.injEq .. ▸ hif
      injection hif with hif2
      obtain ⟨ha1, hb1⟩ := Prod.mk.injEq .. ▸ hif2
      simp only [Prod.mk.injEq] at hif2
      exact ⟨hif2.1 ▸ ha, hif2.2 ▸ hb, hif2.1 ▸ hif2.2 ▸ hz⟩
    · rw [if_neg hz] at hif
      exact absurd hif (by simp)
  · rintro ⟨hx, hy, hz⟩
    exact ⟨y, hy, x, hx, by rw [if_pos hz]⟩

/-- C4 (amended): after the separation pass, two distinct surviving city
cells are at Euclidean distance STRICTLY GREATER than
`min(dim // CITY_CLOSENESS_FACTOR, MAX_CITY_DISALLOW_RADIUS)`: the code
floors `dim / CITY_CLOSENESS_FACTOR` (integer division) rather than using
the exact quotient. -/
theorem remove_close_cities_separation (dim : Nat) (m : Grid) (a b : Cell)
    (ha : a.1 < dim ∧ a.2 < dim) (hb : b.1 < dim ∧ b.2 < dim) (hab : a ≠ b)
    (hMa : removeCloseCities dim m a.1 a.2 ≠ 0)
    (hMb : removeCloseCities dim m b.1 b.2 ≠ 0) :
    (dThreshold dim : ℝ) <
      Real.sqrt (((a.1 : ℝ) - (b.1 : ℝ)) ^ 2 + ((a.2 : ℝ) - (b.2 : ℝ)) ^ 2) := by
  have key : (dThreshold dim : Int) ^ 2 <
      ((a.1 : Int) - (b.1 : Int)) ^ 2 + ((a.2 : Int) - (b.2 : Int)) ^ 2 := by
    set thr := dThreshold dim with hthr
    set coords := nonzeroCoords dim m with hcoords
    set inner := fun (src : Cell) (acc : Grid) =>
      coords.foldl (fun acc2 dst => checkAndRemove thr src dst acc2) acc
      with hinner
    set f := fun (acc : Grid) (src : Cell) => inner src acc with hf
    have hM : removeCloseCities dim m = coords.foldl f m := rfl
    -- membership of both survivors in the original coordinate list
    have hma : m a.1 a.2 ≠ 0 := by
      intro h0
      apply hMa
      rcases outerFold_zeroRel thr coords coords m a.1 a.2 with h | h
      · rw [hM, h, h0]
      · rw [hM, h]
    have hmb : m b.1 b.2 ≠ 0 := by
      intro h0
      apply hMb
      rcases outerFold_zeroRel thr coords coords m b.1 b.2 with h | h
      · rw [hM, h, h0]
      · rw [hM, h]
    have hamem : a ∈ coords :=
      (mem_nonzeroCoords dim m a).mpr ⟨ha.1, ha.2, hma⟩
    have hbmem : b ∈ coords :=
      (mem_nonzeroCoords dim m b).mpr ⟨hb.1, hb.2, hmb⟩
    -- split the outer fold at the processing of src = a
    obtain ⟨l1, l2, hl⟩ := List.append_of_mem hamem
    have hsplit : coords.foldl f m = l2.foldl f (inner a (l1.foldl f m)) := by
      rw [hl, List.foldl_append, List.foldl_cons]
    -- split the inner fold (src = a) at dst = b
    obtain ⟨p1, p2, hp⟩ := List.append_of_mem hbmem
    set m1 := l1.foldl f m with hm1
    set mA := p1.foldl (fun acc2 dst => checkAndRemove thr a dst acc2) m1
      with hmA
    have hisplit : inner a m1 =
        p2.foldl (fun acc2 dst => checkAndRemove thr a dst acc2)
          (checkAndRemove thr a b mA) := by
      rw [hinner]
      simp only
      rw [hp, List.foldl_append, List.foldl_cons]
    set mB := checkAndRemove thr a b mA with hmB
    -- zero-persistence chains
    have z1 : ZeroRel m m1 := outerFold_zeroRel thr coords l1 m
    have z2 : ZeroRel m1 mA := innerFold_zeroRel thr a p1 m1
    have z3 : ZeroRel mA mB := checkAndRemove_zeroRel thr a b mA
    have z4 : ZeroRel mB (inner a m1) := by
      rw [hisplit]; exact innerFold_zeroRel thr a p2 mB
    have z5 : ZeroRel (inner a m1) (removeCloseCities dim m) := by
      rw [hM, hsplit]; exact outerFold_zeroRel thr coords l2 (inner a m1)
    have hAa : mA a.1 a.2 ≠ 0 := by
      intro h0
      apply hMa
      have h1 := (z3.trans (z4.trans z5)) a.1 a.2
      rcases h1 with h | h
      · rw [h, h0]
      · exact h
    have hAb : mA b.1 b.2 ≠ 0 := by
      intro h0
      apply hMb
      have h1 := (z3.trans (z4.trans z5)) b.1 b.2
      rcases h1 with h | h
      · rw [h, h0]
      · exact h
    have hBb : mB b.1 b.2 ≠ 0 := by
      intro h0
      apply hMb
      have h1 := (z4.trans z5) b.1 b.2
      rcases h1 with h | h
      · rw [h, h0]
      · exact h
    exact checkAndRemove_far thr a b mA
      (by
        intro hco
        exact hab (Prod.ext hco.1 hco.2))
      hAa hAb hBb
  have h0 : (0 : ℝ) ≤ ((a.1 : ℝ) - (b.1 : ℝ)) ^ 2 + ((a.2 : ℝ) - (b.2 : ℝ)) ^ 2 := by
    positivity
  rw [show ((a.1 : ℝ) - (b.1 : ℝ)) ^ 2 + ((a.2 : ℝ) - (b.2 : ℝ)) ^ 2 =
      ((((a.1 : Int) - (b.1 : Int)) ^ 2 +
        ((a.2 : Int) - (b.2 : Int)) ^ 2 : Int) : ℝ) by push_cast; ring] at h0 ⊢
  rw [show ((dThreshold dim : ℝ)) = (((dThreshold dim : Int)) : ℝ) by
    push_cast; ring]
  rw [Real.lt_sqrt (by positivity)]
  exact_mod_cast key

/-- Concrete city grid for C4: cities at `(0, 0)` and `(1, 3)`. -/
def c4m : Grid := fun x y =>
  if (x = 0 ∧ y = 0) ∨ (x = 1 ∧ y = 3) then 1 else 0

/-- C4 counterexample: on a 64-grid both cities at distance √10 ≈ 3.162
survive the pass (the integer threshold is `64 // 20 = 3`), yet
`min(64 / 20, 40) = 3.2`, so the claimed bound "distance ≥ 3.2" fails. -/
theorem remove_close_cities_claim_false :
    removeCloseCities 64 c4m 0 0 ≠ 0 ∧ removeCloseCities 64 c4m 1 3 ≠ 0 ∧
      Real.sqrt ((((0 : Nat) : ℝ) - ((1 : Nat) : ℝ)) ^ 2 +
          (((0 : Nat) : ℝ) - ((3 : Nat) : ℝ)) ^ 2) <
        min ((64 : ℝ) / (CITY_CLOSENESS_FACTOR : ℝ))
          (MAX_CITY_DISALLOW_RADIUS : ℝ) := by
  refine ⟨by decide, by decide, ?_⟩
  have h1 : ((((0 : Nat) : ℝ) - ((1 : Nat) : ℝ)) ^ 2 +
      (((0 : Nat) : ℝ) - ((3 : Nat) : ℝ)) ^ 2) = 10 := by norm_num
  rw [h1]
  have h2 : min ((64 : ℝ) / (CITY_CLOSENESS_FACTOR : ℝ))
      (MAX_CITY_DISALLOW_RADIUS : ℝ) = 16 / 5 := by
    rw [show (CITY_CLOSENESS_FACTOR : ℝ) = 20 by norm_num [CITY_CLOSENESS_FACTOR],
      show (MAX_CITY_DISALLOW_RADIUS : ℝ) = 40 by norm_num [MAX_CITY_DISALLOW_RADIUS]]
    norm_num
  rw [h2, show (16 : ℝ) / 5 = Real.sqrt ((16 / 5) ^ 2) by
    rw [Real.sqrt_sq (by norm_num)]]
  apply Real.sqrt_lt_sqrt (by norm_num)
  norm_num

/-- Witness for `remove_close_cities_separation` on the concrete grid. -/
theorem remove_close_cities_separation_witness :
    removeCloseCities 64 c4m 0 0 ≠ 0 ∧
      (dThreshold 64 : ℝ) <
        Real.sqrt ((((0 : Nat) : ℝ) - ((1 : Nat) : ℝ)) ^ 2 +
          (((0 : Nat) : ℝ) - ((3 : Nat) : ℝ)) ^ 2) :=
  ⟨by decide,
    remove_close_cities_separation 64 c4m (0, 0) (1, 3)
      (by constructor <;> decide) (by constructor <;> decide)
      (by decide) (by decide) (by decide)⟩

theorem generateRiver_ne_capacity (dim : Nat) (hm sm : Grid)
    (shuf : List Cell → List Cell) (m : Grid) (x y i fuel : Nat)
    (hi : i ≤ 255) :
    generateRiver dim hm sm shuf RIVER_ITEMSIZE m x y i fuel ≠
      .error .capacity := by
  unfold generateRiver
  split
  · simp
  · split
    · rename_i hcap
      exfalso
      simp only [RIVER_ITEMSIZE, one_mul] at hcap
      omega
    · exact generateRiverLoop_ne_capacity _ _ _ _ _ _ _ _ _

theorem riverGenLoop_ne_capacity (dim : Nat) (hm sm : Grid)
    (shuf : List Cell → List Cell) (fuel : Nat) (sources : List Cell) :
    ∀ (i : Nat) (m : Grid) (ids : List Nat),
      riverGenLoop dim hm sm shuf fuel sources i m ids ≠
        .error .capacity := by
  induction sources with
  | nil => intro i m ids; simp [riverGenLoop]
  | cons p rest ih =>
    intro i m ids
    simp only [riverGenLoop]
    split
    · simp
    · rename_i hle
      have hi : i ≤ 255 := by omega
      cases hgen : generateRiver dim hm sm shuf RIVER_ITEMSIZE m p.1 p.2
          i fuel with
      | error e =>
        intro hc
        have hc' : e = RiverAbort.capacity := by injection hc
        exact generateRiver_ne_capacity dim hm sm shuf m p.1 p.2 i fuel hi
          (hgen.trans (by rw [hc']))
      | ok v =>
        obtain ⟨m1, b⟩ := v
        exact ih _ _ _

/-- C10: through the public `generate` path river ids stay at or below
255 (the loop breaks after id 255) and the matrix dtype is 8-bit, so the
capacity guard `river_id >= 2**(itemsize*8)` never fires: the
`ValueError` it raises is unreachable. -/
theorem river_capacity_guard_unreachable (dim : Nat) (hm sm : Grid)
    (shufM shuf : List Cell → List Cell) (fuel : Nat) :
    riverLayerGenerate dim hm sm shufM shuf fuel ≠ .error .capacity :=
  riverGenLoop_ne_capacity dim hm sm shuf fuel
    (riverSources dim hm shufM) 1 (fun _ _ => 0) []

/-! Road layer (`RoadLayer._generate_road` / `_traceback_road` in
`juice/terrainlayer.py`): Dijkstra search between two cities and greedy
traceback of the found route. -/

/-- 4-adjacency: `b` is an in-bounds edge neighbor of `a`. -/
def Adj (dim : Nat) (a b : Cell) : Prop :=
  b ∈ edgeNeighbors dim a.1 a.2

/-- Elevation penalty of a step, from the neighbor callback:
`MP_PENALTY_ELEV * abs(int(h[cur]) - int(h[n]))`. -/
def elevPenalty (hm : Grid) (c n : Cell) : ℚ :=
  MP_PENALTY_ELEV * |(hm c.1 c.2 : ℚ) - (hm n.1 n.2 : ℚ)|

/-- Cost of stepping from `c` onto neighbor `n`: the fixed low
`MP_ROAD` on existing road cells, otherwise the weightmap value plus
the elevation penalty. -/
def edgeCost (wm : Cell → WithTop ℚ) (hm road0 : Grid) (c n : Cell) :
    WithTop ℚ :=
  if 0 < road0 n.1 n.2 then ((MP_ROAD : ℚ) : WithTop ℚ)
  else wm n + ((elevPenalty hm c n : ℚ) : WithTop ℚ)

/-- Lexicographic comparison of Python heap tuples `(d, nx, ny)`. -/
def entryLE (a b : ℚ × Nat × Nat) : Bool :=
  decide (a.1 < b.1) ||
    (decide (a.1 = b.1) &&
      (decide (a.2.1 < b.2.1) ||
        (decide (a.2.1 = b.2.1) && decide (a.2.2 ≤ b.2.2))))

def minEntry : List (ℚ × Nat × Nat) → (ℚ × Nat × Nat) → ℚ × Nat × Nat
  | [], m => m
  | x :: xs, m => minEntry xs (if entryLE x m then x else m)

/-- `heapq.heappop`: remove and return the lexicographically smallest
tuple of the pool of pending entries. -/
def popMin (q : List (ℚ × Nat × Nat)) :
    Option ((ℚ × Nat × Nat) × List (ℚ × Nat × Nat)) :=
  match q with
  | [] => none
  | x :: xs => some (minEntry xs x, q.erase (minEntry xs x))

/-- Dijkstra working state: the distance matrix `distm`, the pending
heap `to_visit` and the current position `(cx, cy)`. -/
structure DijState where
  dist : Cell → WithTop ℚ
  queue : List (ℚ × Nat × Nat)
  cur : Cell

/-- One `neighbor_callback` visit: relax the edge onto `n`, recording
the improved distance and pushing a heap entry. -/
def relaxStep (wm : Cell → WithTop ℚ) (hm road0 : Grid) (cur : Cell)
    (currD : WithTop ℚ) (st : DijState) (n : Cell) : DijState :=
  let d := currD + edgeCost wm hm road0 cur n
  if d < st.dist n then
    ⟨fun c => if c = n then d else st.dist c,
      (WithTop.untop' 0 d, n.1, n.2) :: st.queue, st.cur⟩
  else st

/-- The neighbor loop of one Dijkstra iteration: `curr_d` is read once
at the loop head, then every in-bounds edge neighbor of the current
position is visited. -/
def relaxAll (dim : Nat) (wm : Cell → WithTop ℚ) (hm road0 : Grid)
    (st : DijState) : DijState :=
  (edgeNeighbors dim st.cur.1 st.cur.2).foldl
    (relaxStep wm hm road0 st.cur (st.dist st.cur)) st

/-- The `while (True)` loop of `_generate_road`: relax around the
current position, then pop the nearest pending entry; an empty heap
means no route (`d == inf`), while popping the end city stops the
search with the route found.  Fuel bounds the iteration count;
exhaustion is the distinguished `none`. -/
def dijkstraLoop (dim : Nat) (wm : Cell → WithTop ℚ) (hm road0 : Grid)
    (e : Cell) : Nat → DijState → Option ((Cell → WithTop ℚ) × Bool)
  | 0, _ => none
  | fuel + 1, st =>
    match popMin (relaxAll dim wm hm road0 st).queue with
    | none => some ((relaxAll dim wm hm road0 st).dist, false)
    | some (entry, rest) =>
      if (entry.2.1, entry.2.2) = e then
        some ((relaxAll dim wm hm road0 st).dist, true)
      else
        dijkstraLoop dim wm hm road0 e fuel
          ⟨(relaxAll dim wm hm road0 st).dist, rest,
            (entry.2.1, entry.2.2)⟩

/-- One `find_min_d_neighbor` scan over the edge neighbors: move to the
running minimum of the recorded distances strictly below `d`. -/
def tracebackStep (dim : Nat) (D : Cell → WithTop ℚ) (c : Cell)
    (d : WithTop ℚ) : Cell × WithTop ℚ :=
  (edgeNeighbors dim c.1 c.2).foldl
    (fun p n => if D n < p.2 then (n, D n) else p) (c, d)

/-- The `while (d > 0)` loop of `_traceback_road`: move greedily
downhill in the distance field and mark the reached cell as road.  An
iteration that finds no smaller neighbor loops forever in the source;
fuel turns that into the distinguished `none`. -/
def tracebackLoop (dim : Nat) (D : Cell → WithTop ℚ) :
    Nat → Cell → WithTop ℚ → Grid → Option (Grid × Cell)
  | 0, c, d, m => if 0 < d then none else some (m, c)
  | fuel + 1, c, d, m =>
    if 0 < d then
      tracebackLoop dim D fuel (tracebackStep dim D c d).1
        (tracebackStep dim D c d).2
        (mset m (tracebackStep dim D c d).1.1
          (tracebackStep dim D c d).1.2 1)
    else some (m, c)

/-- Embedding of `_traceback_road`: mark the end city, then walk the
distance field downhill from it. -/
def tracebackRoad (dim : Nat) (D : Cell → WithTop ℚ) (e : Cell)
    (m : Grid) (fuel : Nat) : Option (Grid × Cell) :=
  tracebackLoop dim D fuel e (D e) (mset m e.1 e.2 1)

/-- Embedding of `RoadLayer._generate_road`: run Dijkstra from the
start city; on reaching the end city trace the road back.  Returns the
road matrix, the final traceback position (when a traceback ran) and
whether the end city was reached. -/
def generateRoad (dim : Nat) (wm : Cell → WithTop ℚ) (hm road0 : Grid)
    (s e : Cell) (fuel tfuel : Nat) :
    Option (Grid × Option Cell × Bool) :=
  match dijkstraLoop dim wm hm road0 e fuel
      ⟨fun c => if c = s then (0 : WithTop ℚ) else ⊤, [], s⟩ with
  | none => none
  | some (_, false) => some (road0, none, false)
  | some (D, true) =>
    match tracebackRoad dim D e road0 tfuel with
    | none => none
    | some (m1, pos) => some (m1, some pos, true)

theorem mem_edgeNeighbors (dim x y : Nat) (c : Cell) :
    c ∈ edgeNeighbors dim x y ↔
      c.1 < dim ∧ c.2 < dim ∧
        ((c.1 = x ∧ c.2 + 1 = y) ∨ (c.1 = x + 1 ∧ c.2 = y) ∨
         (c.1 = x ∧ c.2 = y + 1) ∨ (c.1 + 1 = x ∧ c.2 = y)) := by
  simp only [edgeNeighbors, List.mem_filterMap, List.mem_cons,
    List.not_mem_nil, or_false]
  constructor
  · rintro ⟨a, ha, hf⟩
    split at hf
    · rename_i hb
      obtain ⟨h1, h2⟩ := Prod.mk.injEq .. ▸ Option.some.inj hf
      rcases ha with ha | ha | ha | ha <;>
        (obtain ⟨ha1, ha2⟩ := Prod.mk.injEq .. ▸ ha)
      · refine ⟨by omega, by omega, Or.inl ⟨by omega, by omega⟩⟩
      · exact ⟨by omega, by omega, Or.inr (Or.inl ⟨by omega, by omega⟩)⟩
      · exact ⟨by omega, by omega, Or.inr (Or.inr (Or.inl ⟨by omega, by omega⟩))⟩
      · exact ⟨by omega, by omega, Or.inr (Or.inr (Or.inr ⟨by omega, by omega⟩))⟩
    · exact absurd hf (by simp)
  · rintro ⟨hx, hy, hc⟩
    rcases hc with ⟨h1, h2⟩ | ⟨h1, h2⟩ | ⟨h1, h2⟩ | ⟨h1, h2⟩
    · exact ⟨((x : Int), (y : Int) - 1), Or.inl rfl, by
        rw [if_pos (by omega)]
        congr 1
        exact Prod.ext (by omega) (by omega)⟩
    · exact ⟨((x : Int) + 1, (y : Int)), Or.inr (Or.inl rfl), by
        rw [if_pos (by omega)]
        congr 1
        exact Prod.ext (by omega) (by omega)⟩
    · exact ⟨((x : Int), (y : Int) + 1), Or.inr (Or.inr (Or.inl rfl)), by
        rw [if_pos (by omega)]
        congr 1
        exact Prod.ext (by omega) (by omega)⟩
    · exact ⟨((x : Int) - 1, (y : Int)), Or.inr (Or.inr (Or.inr rfl)), by
        rw [if_pos (by omega)]
        congr 1
        exact Prod.ext (by omega) (by omega)⟩

theorem edgeNeighbors_inbounds {dim x y : Nat} {c : Cell}
    (h : c ∈ edgeNeighbors dim x y) : c.1 < dim ∧ c.2 < dim := by
  have := (mem_edgeNeighbors dim x y c).mp h
  exact ⟨this.1, this.2.1⟩

theorem edgeNeighbors_symm {dim x y : Nat} {c : Cell}
    (h : c ∈ edgeNeighbors dim x y) (hx : x < dim) (hy : y < dim) :
    (x, y) ∈ edgeNeighbors dim c.1 c.2 := by
  rw [mem_edgeNeighbors] at h ⊢
  obtain ⟨h1, h2, h3⟩ := h
  refine ⟨hx, hy, ?_⟩
  rcases h3 with ⟨ha, hb⟩ | ⟨ha, hb⟩ | ⟨ha, hb⟩ | ⟨ha, hb⟩
  · exact Or.inr (Or.inr (Or.inl ⟨by omega, by omega⟩))
  · exact Or.inr (Or.inr (Or.inr ⟨by omega, by omega⟩))
  · exact Or.inl ⟨by omega, by omega⟩
  · exact Or.inr (Or.inl ⟨by omega, by omega⟩)

theorem self_not_mem_edgeNeighbors (dim : Nat) (c : Cell) :
    c ∉ edgeNeighbors dim c.1 c.2 := by
  rw [mem_edgeNeighbors]
  rintro ⟨-, -, h⟩
  rcases h with ⟨h1, h2⟩ | ⟨h1, h2⟩ | ⟨h1, h2⟩ | ⟨h1, h2⟩ <;> omega

theorem lt_add_of_pos_withTop {a b : WithTop ℚ} (ha : a < ⊤)
    (hb : 0 < b) : a < a + b := by
  lift a to ℚ using ha.ne
  cases b with
  | top =>
    rw [WithTop.add_top]
    exact WithTop.coe_lt_top a
  | coe q =>
    rw [← WithTop.coe_add, WithTop.coe_lt_coe]
    have hq : (0 : ℚ) < q := by
      rw [← WithTop.coe_zero, WithTop.coe_lt_coe] at hb
      exact hb
    linarith

theorem elevPenalty_nonneg (hm : Grid) (c n : Cell) :
    0 ≤ elevPenalty hm c n := by
  unfold elevPenalty
  have : (0 : ℚ) ≤ MP_PENALTY_ELEV := by norm_num [MP_PENALTY_ELEV]
  exact mul_nonneg this (abs_nonneg _)

theorem edgeCost_pos (wm : Cell → WithTop ℚ) (hm road0 : Grid)
    (hw : ∀ c, 0 < wm c) (c n : Cell) :
    0 < edgeCost wm hm road0 c n := by
  unfold edgeCost
  split
  · rw [← WithTop.coe_zero, WithTop.coe_lt_coe]
    norm_num [MP_ROAD]
  · calc (0 : WithTop ℚ) < wm n := hw n
    _ ≤ wm n + ((elevPenalty hm c n : ℚ) : WithTop ℚ) := by
        apply le_add_of_nonneg_right
        rw [← WithTop.coe_zero, WithTop.coe_le_coe]
        exact elevPenalty_nonneg hm c n

theorem untop'_coe_of_ne_top {d : WithTop ℚ} (hd : d ≠ ⊤) :
    ((WithTop.untop' 0 d : ℚ) : WithTop ℚ) = d := by
  lift d to ℚ using hd
  rfl

theorem minEntry_mem : ∀ (xs : List (ℚ × Nat × Nat)) (m : ℚ × Nat × Nat),
    minEntry xs m ∈ m :: xs := by
  intro xs
  induction xs with
  | nil => intro m; exact List.mem_cons_self _ _
  | cons x t ih =>
    intro m
    show minEntry t (if entryLE x m then x else m) ∈ m :: x :: t
    by_cases hc : entryLE x m = true
    · rw [if_pos hc]
      rcases List.mem_cons.mp (ih x) with h | h
      · rw [h]
        exact List.mem_cons_of_mem _ (List.mem_cons_self _ _)
      · exact List.mem_cons_of_mem _ (List.mem_cons_of_mem _ h)
    · rw [if_neg hc]
      rcases List.mem_cons.mp (ih m) with h | h
      · rw [h]
        exact List.mem_cons_self _ _
      · exact List.mem_cons_of_mem _ (List.mem_cons_of_mem _ h)

theorem popMin_none_iff (q : List (ℚ × Nat × Nat)) :
    popMin q = none ↔ q = [] := by
  cases q <;> simp [popMin]

theorem popMin_some {q : List (ℚ × Nat × Nat)}
    {m : ℚ × Nat × Nat} {rest : List (ℚ × Nat × Nat)}
    (h : popMin q = some (m, rest)) : m ∈ q ∧ rest = q.erase m := by
  cases q with
  | nil => exact absurd h (by simp [popMin])
  | cons x xs =>
    obtain ⟨h1, h2⟩ := Prod.mk.injEq .. ▸ Option.some.inj h
    exact ⟨h1 ▸ minEntry_mem xs x, by rw [← h1, ← h2]⟩

/-- A cell with an entry in the pending heap. -/
def Pending (st : DijState) (c : Cell) : Prop :=
  ∃ q ∈ st.queue, (q.2.1, q.2.2) = c

/-- All edges out of `c` relaxed with respect to distance field `D`. -/
def RelaxedAt (dim : Nat) (wm : Cell → WithTop ℚ) (hm road0 : Grid)
    (D : Cell → WithTop ℚ) (c : Cell) : Prop :=
  ∀ n ∈ edgeNeighbors dim c.1 c.2, D n ≤ D c + edgeCost wm hm road0 c n

/-- Invariant of the Dijkstra state through one relaxation pass around
`cur`, whose distance snapshot is `currD`. -/
structure RInv (dim : Nat) (wm : Cell → WithTop ℚ) (hm road0 : Grid)
    (s e cur : Cell) (currD : WithTop ℚ) (st : DijState) : Prop where
  nonneg : ∀ c, 0 ≤ st.dist c
  startz : st.dist s = 0
  zstart : ∀ c, st.dist c = 0 → c = s
  descent : ∀ c, st.dist c < ⊤ → c = s ∨
    ∃ n ∈ edgeNeighbors dim c.1 c.2, st.dist n < st.dist c
  qdist : ∀ q ∈ st.queue, st.dist (q.2.1, q.2.2) ≤ ((q.1 : ℚ) : WithTop ℚ)
  qin : ∀ q ∈ st.queue, q.2.1 < dim ∧ q.2.2 < dim
  cover : ∀ c, st.dist c < ⊤ → c = cur ∨ Pending st c ∨
    RelaxedAt dim wm hm road0 st.dist c
  endp : st.dist e < ⊤ → Pending st e
  cureq : st.cur = cur
  distcur : st.dist cur = currD

theorem relaxStep_spec (dim : Nat) (wm : Cell → WithTop ℚ)
    (hm road0 : Grid) (s e cur : Cell) (currD : WithTop ℚ)
    (hw : ∀ c, 0 < wm c) (hcin : cur.1 < dim ∧ cur.2 < dim)
    (hfin : currD < ⊤) (st : DijState) (n : Cell)
    (hn : n ∈ edgeNeighbors dim cur.1 cur.2)
    (hI : RInv dim wm hm road0 s e cur currD st) :
    RInv dim wm hm road0 s e cur currD
        (relaxStep wm hm road0 cur currD st n) ∧
      (∀ a, (relaxStep wm hm road0 cur currD st n).dist a ≤ st.dist a) ∧
      (relaxStep wm hm road0 cur currD st n).dist n ≤
        currD + edgeCost wm hm road0 cur n := by
  have hstep : relaxStep wm hm road0 cur currD st n =
      if currD + edgeCost wm hm road0 cur n < st.dist n then
        (⟨fun c => if c = n then currD + edgeCost wm hm road0 cur n
            else st.dist c,
          (WithTop.untop' 0 (currD + edgeCost wm hm road0 cur n),
            n.1, n.2) :: st.queue, st.cur⟩ : DijState)
      else st := rfl
  rw [hstep]
  by_cases hlt : currD + edgeCost wm hm road0 cur n < st.dist n
  case neg =>
    rw [if_neg hlt]
    exact ⟨hI, fun a => le_refl _, le_of_not_lt hlt⟩
  rw [if_pos hlt]
  have hcost := edgeCost_pos wm hm road0 hw cur n
  have hdtop : currD + edgeCost wm hm road0 cur n < ⊤ :=
    lt_of_lt_of_le hlt le_top
  have hcurr0 : 0 ≤ currD := hI.distcur ▸ hI.nonneg cur
  have hcurrd : currD < currD + edgeCost wm hm road0 cur n :=
    lt_add_of_pos_withTop hfin hcost
  have hdpos : 0 < currD + edgeCost wm hm road0 cur n :=
    lt_of_le_of_lt hcurr0 hcurrd
  have hncur : n ≠ cur := by
    intro h
    rw [h] at hn
    exact self_not_mem_edgeNeighbors dim cur hn
  have h0 : st.dist n ≠ 0 := by
    intro h
    rw [h] at hlt
    exact absurd hlt (not_lt_of_le (le_of_lt hdpos))
  have hns : n ≠ s := by
    intro h
    exact h0 (by rw [h]; exact hI.startz)
  have hmono : ∀ a,
      (if a = n then currD + edgeCost wm hm road0 cur n else st.dist a) ≤
        st.dist a := by
    intro a
    by_cases h : a = n
    · rw [if_pos h, h]
      exact le_of_lt hlt
    · exact le_of_eq (if_neg h)
  have hnin := edgeNeighbors_inbounds hn
  refine ⟨⟨?_, ?_, ?_, ?_, ?_, ?_, ?_, ?_, hI.cureq, ?_⟩, hmono, ?_⟩
  · intro c
    show (0 : WithTop ℚ) ≤
      if c = n then currD + edgeCost wm hm road0 cur n else st.dist c
    split
    · exact le_of_lt hdpos
    · exact hI.nonneg c
  · show (if s = n then currD + edgeCost wm hm road0 cur n
        else st.dist s) = 0
    rw [if_neg (Ne.symm hns), hI.startz]
  · intro c hc
    have hc' : (if c = n then currD + edgeCost wm hm road0 cur n
        else st.dist c) = 0 := hc
    by_cases hcn : c = n
    · rw [if_pos hcn] at hc'
      exact absurd hc' (ne_of_gt hdpos)
    · rw [if_neg hcn] at hc'
      exact hI.zstart c hc'
  · intro c hc
    by_cases hcn : c = n
    · refine Or.inr ⟨(cur.1, cur.2), ?_, ?_⟩
      · rw [hcn]
        exact edgeNeighbors_symm hn hcin.1 hcin.2
      · show (if ((cur.1 : Nat), (cur.2 : Nat)) = n then
            currD + edgeCost wm hm road0 cur n
          else st.dist (cur.1, cur.2)) <
          (if c = n then currD + edgeCost wm hm road0 cur n
          else st.dist c)
        rw [Prod.mk.eta, if_neg (Ne.symm hncur), if_pos hcn, hI.distcur]
        exact hcurrd
    · have hc' : (if c = n then currD + edgeCost wm hm road0 cur n
          else st.dist c) < ⊤ := hc
      rw [if_neg hcn] at hc'
      rcases hI.descent c hc' with h | ⟨w, hw1, hw2⟩
      · exact Or.inl h
      · refine Or.inr ⟨w, hw1, ?_⟩
        show (if w = n then currD + edgeCost wm hm road0 cur n
            else st.dist w) <
          (if c = n then currD + edgeCost wm hm road0 cur n
          else st.dist c)
        rw [if_neg hcn]
        exact lt_of_le_of_lt (hmono w) hw2
  · intro q hq
    rcases List.mem_cons.mp hq with hq | hq
    · rw [hq]
      refine le_of_eq ?_
      show (if ((n.1 : Nat), (n.2 : Nat)) = n then
          currD + edgeCost wm hm road0 cur n
        else st.dist (n.1, n.2)) =
        ((WithTop.untop' 0 (currD + edgeCost wm hm road0 cur n) : ℚ) :
          WithTop ℚ)
      rw [Prod.mk.eta, if_pos rfl,
        untop'_coe_of_ne_top (ne_top_of_lt hdtop)]
    · exact le_trans (hmono _) (hI.qdist q hq)
  · intro q hq
    rcases List.mem_cons.mp hq with hq | hq
    · rw [hq]
      exact hnin
    · exact hI.qin q hq
  · intro c hc
    by_cases hcn : c = n
    · refine Or.inr (Or.inl ⟨(WithTop.untop' 0
        (currD + edgeCost wm hm road0 cur n), n.1, n.2),
        List.mem_cons_self _ _, ?_⟩)
      rw [hcn]
    · have hc' : (if c = n then currD + edgeCost wm hm road0 cur n
          else st.dist c) < ⊤ := hc
      rw [if_neg hcn] at hc'
      rcases hI.cover c hc' with h | ⟨q, hq, hcell⟩ | h
      · exact Or.inl h
      · exact Or.inr (Or.inl ⟨q, List.mem_cons_of_mem _ hq, hcell⟩)
      · refine Or.inr (Or.inr ?_)
        intro k hk
        show (if k = n then currD + edgeCost wm hm road0 cur n
            else st.dist k) ≤
          (if c = n then currD + edgeCost wm hm road0 cur n
            else st.dist c) + edgeCost wm hm road0 c k
        rw [if_neg hcn]
        exact le_trans (hmono k) (h k hk)
  · intro hc
    by_cases hen : e = n
    · exact ⟨(WithTop.untop' 0 (currD + edgeCost wm hm road0 cur n),
        n.1, n.2), List.mem_cons_self _ _, by rw [hen]⟩
    · have hc' : (if e = n then currD + edgeCost wm hm road0 cur n
          else st.dist e) < ⊤ := hc
      rw [if_neg hen] at hc'
      obtain ⟨q, hq, hcell⟩ := hI.endp hc'
      exact ⟨q, List.mem_cons_of_mem _ hq, hcell⟩
  · show (if cur = n then currD + edgeCost wm hm road0 cur n
        else st.dist cur) = currD
    rw [if_neg (Ne.symm hncur), hI.distcur]
  · exact le_of_eq (if_pos rfl)

theorem relaxFold_spec (dim : Nat) (wm : Cell → WithTop ℚ)
    (hm road0 : Grid) (s e cur : Cell) (currD : WithTop ℚ)
    (hw : ∀ c, 0 < wm c) (hcin : cur.1 < dim ∧ cur.2 < dim)
    (hfin : currD < ⊤) :
    ∀ (l : List Cell), (∀ n ∈ l, n ∈ edgeNeighbors dim cur.1 cur.2) →
      ∀ (st : DijState), RInv dim wm hm road0 s e cur currD st →
      RInv dim wm hm road0 s e cur currD
          (l.foldl (relaxStep wm hm road0 cur currD) st) ∧
        (∀ a, (l.foldl (relaxStep wm hm road0 cur currD) st).dist a ≤
          st.dist a) ∧
        (∀ n ∈ l, (l.foldl (relaxStep wm hm road0 cur currD) st).dist n ≤
          currD + edgeCost wm hm road0 cur n) := by
  intro l
  induction l with
  | nil =>
    intro _ st hI
    exact ⟨hI, fun a => le_refl _, by simp⟩
  | cons n t ih =>
    intro hmem st hI
    rw [List.foldl_cons]
    obtain ⟨hI1, hm1, hp1⟩ := relaxStep_spec dim wm hm road0 s e cur currD
      hw hcin hfin st n (hmem n (List.mem_cons_self _ _)) hI
    obtain ⟨hI2, hm2, hp2⟩ := ih
      (fun k hk => hmem k (List.mem_cons_of_mem _ hk))
      (relaxStep wm hm road0 cur currD st n) hI1
    refine ⟨hI2, fun a => le_trans (hm2 a) (hm1 a), ?_⟩
    intro k hk
    rcases List.mem_cons.mp hk with hk | hk
    · rw [hk]
      exact le_trans (hm2 n) hp1
    · exact hp2 k hk

/-- After a full relaxation pass every finite cell is pending or fully
relaxed: the pass makes the current cell relaxed at its snapshot
distance. -/
theorem cover_full (dim : Nat) (wm : Cell → WithTop ℚ)
    (hm road0 : Grid) (s e cur : Cell) (currD : WithTop ℚ)
    (st1 : DijState) (hI : RInv dim wm hm road0 s e cur currD st1)
    (hproc : ∀ n ∈ edgeNeighbors dim cur.1 cur.2,
      st1.dist n ≤ currD + edgeCost wm hm road0 cur n) :
    ∀ c, st1.dist c < ⊤ → Pending st1 c ∨
      RelaxedAt dim wm hm road0 st1.dist c := by
  intro c hc
  rcases hI.cover c hc with h | h | h
  · refine Or.inr ?_
    intro k hk
    rw [h]
    rw [h] at hk
    rw [hI.distcur]
    exact hproc k hk
  · exact Or.inl h
  · exact Or.inr h

theorem dijkstraLoop_spec (dim : Nat) (wm : Cell → WithTop ℚ)
    (hm road0 : Grid) (s e : Cell) (hw : ∀ c, 0 < wm c) :
    ∀ (fuel : Nat) (st : DijState) (D : Cell → WithTop ℚ) (flag : Bool),
      RInv dim wm hm road0 s e st.cur (st.dist st.cur) st →
      st.cur.1 < dim → st.cur.2 < dim → st.dist st.cur < ⊤ →
      dijkstraLoop dim wm hm road0 e fuel st = some (D, flag) →
      (∀ c, 0 ≤ D c) ∧ D s = 0 ∧ (∀ c, D c = 0 → c = s) ∧
        (∀ c, D c < ⊤ → c = s ∨
          ∃ n ∈ edgeNeighbors dim c.1 c.2, D n < D c) ∧
        (flag = true → D e < ⊤) ∧
        (flag = false → D s < ⊤ ∧
          (∀ c, D c < ⊤ → RelaxedAt dim wm hm road0 D c) ∧ D e = ⊤) := by
  intro fuel
  induction fuel with
  | zero =>
    intro st D flag _ _ _ _ h
    exact absurd h (by simp [dijkstraLoop])
  | succ f ih =>
    intro st D flag hI hin1 hin2 hfin hrun
    obtain ⟨hI1, hmono, hproc⟩ :
        RInv dim wm hm road0 s e st.cur (st.dist st.cur)
            (relaxAll dim wm hm road0 st) ∧
          (∀ a, (relaxAll dim wm hm road0 st).dist a ≤ st.dist a) ∧
          (∀ n ∈ edgeNeighbors dim st.cur.1 st.cur.2,
            (relaxAll dim wm hm road0 st).dist n ≤
              st.dist st.cur + edgeCost wm hm road0 st.cur n) :=
      relaxFold_spec dim wm hm road0 s e st.cur (st.dist st.cur) hw
        ⟨hin1, hin2⟩ hfin (edgeNeighbors dim st.cur.1 st.cur.2)
        (fun n hn => hn) st hI
    have hcfull := cover_full dim wm hm road0 s e st.cur
      (st.dist st.cur) (relaxAll dim wm hm road0 st) hI1 hproc
    unfold dijkstraLoop at hrun
    cases hpop : popMin (relaxAll dim wm hm road0 st).queue with
    | none =>
      rw [hpop] at hrun
      obtain ⟨hD, hflag⟩ := Prod.mk.injEq .. ▸ Option.some.inj hrun
      have hq : (relaxAll dim wm hm road0 st).queue = [] :=
        (popMin_none_iff _).mp hpop
      subst hD
      refine ⟨hI1.nonneg, hI1.startz, hI1.zstart, hI1.descent, ?_, ?_⟩
      · intro h
        rw [h] at hflag
        exact absurd hflag (by simp)
      · intro _
        refine ⟨?_, ?_, ?_⟩
        · rw [hI1.startz]
          rw [← WithTop.coe_zero]
          exact WithTop.coe_lt_top 0
        · intro c hc
          rcases hcfull c hc with ⟨q, hq2, _⟩ | h
          · rw [hq] at hq2
            exact absurd hq2 (List.not_mem_nil q)
          · exact h
        · by_contra htop
          have hfe : (relaxAll dim wm hm road0 st).dist e < ⊤ :=
            lt_top_iff_ne_top.mpr htop
          obtain ⟨q, hq2, _⟩ := hI1.endp hfe
          rw [hq] at hq2
          exact absurd hq2 (List.not_mem_nil q)
    | some pr =>
      obtain ⟨entry, rest⟩ := pr
      rw [hpop] at hrun
      have hrun' : (if ((entry.2.1 : Nat), (entry.2.2 : Nat)) = e then
          some ((relaxAll dim wm hm road0 st).dist, true)
        else dijkstraLoop dim wm hm road0 e f
          ⟨(relaxAll dim wm hm road0 st).dist, rest,
            (entry.2.1, entry.2.2)⟩) = some (D, flag) := hrun
      clear hrun
      obtain ⟨hmem, hrest⟩ := popMin_some hpop
      by_cases hend : ((entry.2.1 : Nat), (entry.2.2 : Nat)) = e
      · rw [if_pos hend] at hrun'
        obtain ⟨hD, hflag⟩ := Prod.mk.injEq .. ▸ Option.some.inj hrun'
        subst hD
        refine ⟨hI1.nonneg, hI1.startz, hI1.zstart, hI1.descent, ?_, ?_⟩
        · intro _
          have := hI1.qdist entry hmem
          rw [hend] at this
          exact lt_of_le_of_lt this (WithTop.coe_lt_top entry.1)
        · intro h
          rw [h] at hflag
          exact absurd hflag (by simp)
      · rw [if_neg hend] at hrun'
        have hdcur : (relaxAll dim wm hm road0 st).dist
            (entry.2.1, entry.2.2) ≤ ((entry.1 : ℚ) : WithTop ℚ) :=
          hI1.qdist entry hmem
        have hcurfin : (relaxAll dim wm hm road0 st).dist
            (entry.2.1, entry.2.2) < ⊤ :=
          lt_of_le_of_lt hdcur (WithTop.coe_lt_top entry.1)
        have hqin := hI1.qin entry hmem
        refine ih ⟨(relaxAll dim wm hm road0 st).dist, rest,
          (entry.2.1, entry.2.2)⟩ D flag ⟨?_, ?_, ?_, ?_, ?_, ?_, ?_, ?_,
            rfl, rfl⟩ hqin.1 hqin.2 hcurfin hrun'
        · exact hI1.nonneg
        · exact hI1.startz
        · exact hI1.zstart
        · exact hI1.descent
        · intro q hq
          apply hI1.qdist
          rw [hrest] at hq
          exact List.mem_of_mem_erase hq
        · intro q hq
          apply hI1.qin
          rw [hrest] at hq
          exact List.mem_of_mem_erase hq
        · intro c hc
          rcases hcfull c hc with ⟨q, hq2, hcell⟩ | h
          · by_cases hqe : q = entry
            · refine Or.inl ?_
              rw [← hcell, hqe]
            · refine Or.inr (Or.inl ⟨q, ?_, hcell⟩)
              show q ∈ rest
              rw [hrest]
              exact (List.mem_erase_of_ne hqe).mpr hq2
          · exact Or.inr (Or.inr h)
        · intro hc
          obtain ⟨q, hq2, hcell⟩ := hI1.endp hc
          have hqe : q ≠ entry := by
            intro h
            rw [h] at hcell
            exact hend hcell
          refine ⟨q, ?_, hcell⟩
          show q ∈ rest
          rw [hrest]
          exact (List.mem_erase_of_ne hqe).mpr hq2

theorem mset_hit (m : Grid) (x y v : Nat) : mset m x y v x y = v := by
  unfold mset
  rw [if_pos ⟨rfl, rfl⟩]

theorem mset_keep_one (m : Grid) (x y a b : Nat) (h : m a b = 1) :
    mset m x y 1 a b = 1 := by
  unfold mset
  split
  · rfl
  · exact h

theorem tbFold_spec (D : Cell → WithTop ℚ) :
    ∀ (l : List Cell) (p : Cell × WithTop ℚ),
      (l.foldl (fun p n => if D n < p.2 then (n, D n) else p) p = p ∧
        ∀ n ∈ l, ¬ D n < p.2) ∨
      ((l.foldl (fun p n => if D n < p.2 then (n, D n) else p) p).1 ∈ l ∧
        (l.foldl (fun p n => if D n < p.2 then (n, D n) else p) p).2 =
          D (l.foldl (fun p n => if D n < p.2 then (n, D n) else p) p).1 ∧
        (l.foldl (fun p n => if D n < p.2 then (n, D n) else p) p).2 <
          p.2) := by
  intro l
  induction l with
  | nil => intro p; exact Or.inl ⟨rfl, by simp⟩
  | cons n t ih =>
    intro p
    rw [List.foldl_cons]
    by_cases hlt : D n < p.2
    · rw [if_pos hlt]
      rcases ih (n, D n) with ⟨heq, hall⟩ | ⟨h1, h2, h3⟩
      · rw [heq]
        exact Or.inr ⟨List.mem_cons_self _ _, rfl, hlt⟩
      · exact Or.inr ⟨List.mem_cons_of_mem _ h1, h2, lt_trans h3 hlt⟩
    · rw [if_neg hlt]
      rcases ih p with ⟨heq, hall⟩ | ⟨h1, h2, h3⟩
      · refine Or.inl ⟨heq, ?_⟩
        intro k hk
        rcases List.mem_cons.mp hk with hk | hk
        · rw [hk]
          exact hlt
        · exact hall k hk
      · exact Or.inr ⟨List.mem_cons_of_mem _ h1, h2, h3⟩

theorem tracebackLoop_sound (dim : Nat) (D : Cell → WithTop ℚ) (s : Cell)
    (hnn : ∀ c, 0 ≤ D c) (hs0 : D s = 0) (hzs : ∀ c, D c = 0 → c = s)
    (hdes : ∀ c, D c < ⊤ → c = s ∨
      ∃ n ∈ edgeNeighbors dim c.1 c.2, D n < D c) :
    ∀ (fuel : Nat) (c : Cell) (d : WithTop ℚ) (m m1 : Grid) (pos : Cell),
      d = D c → D c < ⊤ → m c.1 c.2 = 1 →
      tracebackLoop dim D fuel c d m = some (m1, pos) →
      pos = s ∧ ∃ p : List Cell, p.head? = some c ∧
        p.getLast? = some s ∧ List.Chain' (Adj dim) p ∧
        (∀ k ∈ p, m1 k.1 k.2 = 1) ∧ (∀ a b, m a b = 1 → m1 a b = 1) := by
  intro fuel
  induction fuel with
  | zero =>
    intro c d m m1 pos hd hfin hmk hrun
    have hrun' : (if 0 < d then none else some (m, c)) =
        some (m1, pos) := hrun
    by_cases h0 : 0 < d
    · rw [if_pos h0] at hrun'
      exact absurd hrun' (by simp)
    · rw [if_neg h0] at hrun'
      obtain ⟨hm1, hpos⟩ := Prod.mk.injEq .. ▸ Option.some.inj hrun'
      have hd0 : D c = 0 := le_antisymm (hd ▸ le_of_not_lt h0) (hnn c)
      have hcs : c = s := hzs c hd0
      subst hm1
      refine ⟨hpos ▸ hcs, [c], rfl, ?_, List.chain'_singleton c, ?_, ?_⟩
      · rw [hcs]
        rfl
      · intro k hk
        rcases List.mem_cons.mp hk with hk | hk
        · rw [hk]
          exact hmk
        · exact absurd hk (List.not_mem_nil k)
      · intro a b h
        exact h
  | succ f ih =>
    intro c d m m1 pos hd hfin hmk hrun
    have hrun' : (if 0 < d then
        tracebackLoop dim D f (tracebackStep dim D c d).1
          (tracebackStep dim D c d).2
          (mset m (tracebackStep dim D c d).1.1
            (tracebackStep dim D c d).1.2 1)
      else some (m, c)) = some (m1, pos) := hrun
    by_cases h0 : 0 < d
    · rw [if_pos h0] at hrun'
      have hcs : c ≠ s := by
        intro h
        rw [h, hs0] at hd
        rw [hd] at h0
        exact lt_irrefl 0 h0
      rcases hdes c hfin with h | ⟨n, hn1, hn2⟩
      · exact absurd h hcs
      rcases tbFold_spec D (edgeNeighbors dim c.1 c.2) (c, d) with
        ⟨heq, hall⟩ | ⟨h1, h2, h3⟩
      · have hn2' : D n < d := by rw [hd]; exact hn2
        exact absurd hn2' (hall n hn1)
      have h1' : (tracebackStep dim D c d).1 ∈
          edgeNeighbors dim c.1 c.2 := h1
      have h2' : (tracebackStep dim D c d).2 =
          D (tracebackStep dim D c d).1 := h2
      have h3' : (tracebackStep dim D c d).2 < d := h3
      have hdfin : d < ⊤ := by rw [hd]; exact hfin
      have hbfin : D (tracebackStep dim D c d).1 < ⊤ := by
        rw [← h2']
        exact lt_trans h3' hdfin
      obtain ⟨hpos, p', hph, hpl, hpch, hpmk, hpmono⟩ :=
        ih (tracebackStep dim D c d).1 (tracebackStep dim D c d).2
          (mset m (tracebackStep dim D c d).1.1
            (tracebackStep dim D c d).1.2 1) m1 pos h2 hbfin
          (mset_hit m _ _ 1) hrun'
      refine ⟨hpos, c :: p', rfl, ?_, ?_, ?_, ?_⟩
      · cases p' with
        | nil => exact absurd hph (by simp)
        | cons a t => rw [List.getLast?_cons_cons]; exact hpl
      · cases p' with
        | nil => exact absurd hph (by simp)
        | cons a t =>
          rw [List.chain'_cons]
          refine ⟨?_, hpch⟩
          have ha : a = (tracebackStep dim D c d).1 := Option.some.inj hph
          rw [ha]
          exact h1'
      · intro k hk
        rcases List.mem_cons.mp hk with hk | hk
        · rw [hk]
          exact hpmono c.1 c.2 (mset_keep_one m _ _ _ _ hmk)
        · exact hpmk k hk
      · intro a b h
        exact hpmono a b (mset_keep_one m _ _ _ _ h)
    · rw [if_neg h0] at hrun'
      obtain ⟨hm1, hpos⟩ := Prod.mk.injEq .. ▸ Option.some.inj hrun'
      have hd0 : D c = 0 := le_antisymm (hd ▸ le_of_not_lt h0) (hnn c)
      have hcs : c = s := hzs c hd0
      subst hm1
      refine ⟨hpos ▸ hcs, [c], rfl, ?_, List.chain'_singleton c, ?_, ?_⟩
      · rw [hcs]
        rfl
      · intro k hk
        rcases List.mem_cons.mp hk with hk | hk
        · rw [hk]
          exact hmk
        · exact absurd hk (List.not_mem_nil k)
      · intro a b h
        exact h

theorem relaxed_path_finite (dim : Nat) (wm : Cell → WithTop ℚ)
    (hm road0 : Grid) (D : Cell → WithTop ℚ)
    (hrel : ∀ c, D c < ⊤ → RelaxedAt dim wm hm road0 D c) :
    ∀ (p : List Cell) (a b : Cell), p.head? = some a →
      p.getLast? = some b →
      List.Chain' (fun u v => Adj dim u v ∧
        edgeCost wm hm road0 u v < ⊤) p →
      D a < ⊤ → D b < ⊤ := by
  intro p
  induction p with
  | nil => intro a b h _ _ _; exact absurd h (by simp)
  | cons x t ih =>
    intro a b hh hl hch ha
    have hxa : x = a := Option.some.inj hh
    cases t with
    | nil =>
      have hxb : x = b := Option.some.inj hl
      rw [← hxb, hxa]
      exact ha
    | cons y t2 =>
      obtain ⟨⟨hadj, hcost⟩, hch2⟩ := List.chain'_cons.mp hch
      have hy : D y < ⊤ := by
        have hle := hrel x (hxa ▸ ha) y hadj
        exact lt_of_le_of_lt hle
          (WithTop.add_lt_top.mpr ⟨hxa ▸ ha, hcost⟩)
      exact ih y b rfl (by rw [← hl, List.getLast?_cons_cons]) hch2 hy

/-- C1: for a city pair `(s, e)` handed to `_generate_road`, if a
4-connected path of finite total cost joins `s` to `e`, then whenever
the call completes, the end city was reached, the greedy traceback
terminated at the start city, and the road matrix holds a 4-connected
sequence of cells equal to `1` from `e` to `s`.  Strictly positive
weights (all actual weightmap values are) keep the distance field's
greedy descent well founded. -/
theorem generate_road_builds_path (dim : Nat) (wm : Cell → WithTop ℚ)
    (hm road0 : Grid) (s e : Cell) (fuel tfuel : Nat)
    (res : Grid × Option Cell × Bool) (hw : ∀ c, 0 < wm c)
    (hs1 : s.1 < dim) (hs2 : s.2 < dim) (hse : s ≠ e)
    (hpath : ∃ p : List Cell, p.head? = some s ∧ p.getLast? = some e ∧
      List.Chain' (fun u v => Adj dim u v ∧
        edgeCost wm hm road0 u v < ⊤) p)
    (hrun : generateRoad dim wm hm road0 s e fuel tfuel = some res) :
    res.2.2 = true ∧ res.2.1 = some s ∧
      ∃ q : List Cell, q.head? = some e ∧ q.getLast? = some s ∧
        List.Chain' (Adj dim) q ∧ ∀ k ∈ q, res.1 k.1 k.2 = 1 := by
  have hzt : (0 : WithTop ℚ) < ⊤ := by
    rw [← WithTop.coe_zero]
    exact WithTop.coe_lt_top 0
  have hI0 : RInv dim wm hm road0 s e
      (⟨fun c => if c = s then (0 : WithTop ℚ) else ⊤, [], s⟩ :
        DijState).cur
      ((⟨fun c => if c = s then (0 : WithTop ℚ) else ⊤, [], s⟩ :
        DijState).dist
        (⟨fun c => if c = s then (0 : WithTop ℚ) else ⊤, [], s⟩ :
          DijState).cur)
      ⟨fun c => if c = s then (0 : WithTop ℚ) else ⊤, [], s⟩ := by
    refine ⟨?_, ?_, ?_, ?_, ?_, ?_, ?_, ?_, rfl, rfl⟩
    · intro c
      show (0 : WithTop ℚ) ≤ if c = s then (0 : WithTop ℚ) else ⊤
      split
      · exact le_refl 0
      · exact le_top
    · show (if s = s then (0 : WithTop ℚ) else ⊤) = 0
      rw [if_pos rfl]
    · intro c hc
      have hc' : (if c = s then (0 : WithTop ℚ) else ⊤) = 0 := hc
      by_cases h : c = s
      · exact h
      · rw [if_neg h] at hc'
        exact absurd hc' (by simp)
    · intro c hc
      have hc' : (if c = s then (0 : WithTop ℚ) else ⊤) < ⊤ := hc
      by_cases h : c = s
      · exact Or.inl h
      · rw [if_neg h] at hc'
        exact absurd hc' (lt_irrefl ⊤)
    · intro q hq
      exact absurd hq (List.not_mem_nil q)
    · intro q hq
      exact absurd hq (List.not_mem_nil q)
    · intro c hc
      have hc' : (if c = s then (0 : WithTop ℚ) else ⊤) < ⊤ := hc
      by_cases h : c = s
      · exact Or.inl h
      · rw [if_neg h] at hc'
        exact absurd hc' (lt_irrefl ⊤)
    · intro hc
      have hc' : (if e = s then (0 : WithTop ℚ) else ⊤) < ⊤ := hc
      rw [if_neg (Ne.symm hse)] at hc'
      exact absurd hc' (lt_irrefl ⊤)
  have hfin0 : (⟨fun c => if c = s then (0 : WithTop ℚ) else ⊤, [], s⟩ :
      DijState).dist
      (⟨fun c => if c = s then (0 : WithTop ℚ) else ⊤, [], s⟩ :
        DijState).cur < ⊤ := by
    show (if s = s then (0 : WithTop ℚ) else ⊤) < ⊤
    rw [if_pos rfl]
    exact hzt
  cases hdij : dijkstraLoop dim wm hm road0 e fuel
      ⟨fun c => if c = s then (0 : WithTop ℚ) else ⊤, [], s⟩ with
  | none =>
    have hrun' : (none : Option (Grid × Option Cell × Bool)) = some res := by
      rw [← hrun]
      show _ = generateRoad dim wm hm road0 s e fuel tfuel
      unfold generateRoad
      rw [hdij]
    exact absurd hrun' (by simp)
  | some pr =>
    obtain ⟨D, flag⟩ := pr
    obtain ⟨hn, hdzero, hzs, hdes, hflagT, hflagF⟩ :=
      dijkstraLoop_spec dim wm hm road0 s e hw fuel
        ⟨fun c => if c = s then (0 : WithTop ℚ) else ⊤, [], s⟩ D flag
        hI0 hs1 hs2 hfin0 hdij
    cases flag with
    | false =>
      obtain ⟨hDs, hrel, hDe⟩ := hflagF rfl
      obtain ⟨p, hh, hl, hch⟩ := hpath
      have hfe := relaxed_path_finite dim wm hm road0 D hrel p s e
        hh hl hch hDs
      rw [hDe] at hfe
      exact absurd hfe (lt_irrefl ⊤)
    | true =>
      have hDe := hflagT rfl
      have hrun' : (match tracebackRoad dim D e road0 tfuel with
          | none => none
          | some (m1, pos) => some (m1, some pos, true)) = some res := by
        rw [← hrun]
        show _ = generateRoad dim wm hm road0 s e fuel tfuel
        unfold generateRoad
        rw [hdij]
      cases htr : tracebackRoad dim D e road0 tfuel with
      | none =>
        rw [htr] at hrun'
        exact absurd hrun' (by simp)
      | some pr2 =>
        obtain ⟨m1, pos⟩ := pr2
        rw [htr] at hrun'
        have hres : res = (m1, some pos, true) :=
          (Option.some.inj hrun').symm
        have htr' : tracebackLoop dim D tfuel e (D e)
            (mset road0 e.1 e.2 1) = some (m1, pos) := htr
        obtain ⟨hpos, p', hph, hpl, hpch, hpmk, _⟩ :=
          tracebackLoop_sound dim D s hn hdzero hzs hdes tfuel e (D e)
            (mset road0 e.1 e.2 1) m1 pos rfl hDe
            (mset_hit road0 e.1 e.2 1) htr'
        rw [hres]
        exact ⟨rfl, by rw [hpos], p', hph, hpl, hpch, hpmk⟩

/-- Uniform weightmap for the witness run: 1.0 everywhere. -/
def c1wm : Cell → WithTop ℚ := fun _ => ((1 : ℚ) : WithTop ℚ)

def c1run : Option (Grid × Option Cell × Bool) :=
  generateRoad 2 c1wm (fun _ _ => 0) (fun _ _ => 0) (0, 0) (1, 0) 5 5

def c1res : Grid × Option Cell × Bool :=
  c1run.getD (fun _ _ => 0, none, false)

theorem generate_road_builds_path_witness :
    c1run = some c1res ∧ (∀ c, 0 < c1wm c) ∧
      (0 : Nat) < 2 ∧ ((0, 0) : Cell) ≠ (1, 0) ∧
      (∃ p : List Cell, p.head? = some ((0, 0) : Cell) ∧
        p.getLast? = some ((1, 0) : Cell) ∧
        List.Chain' (fun u v => Adj 2 u v ∧
          edgeCost c1wm (fun _ _ => 0) (fun _ _ => 0) u v < ⊤) p) ∧
      (c1res.2.2 = true ∧ c1res.2.1 = some ((0, 0) : Cell) ∧
        ∃ q : List Cell, q.head? = some ((1, 0) : Cell) ∧
          q.getLast? = some ((0, 0) : Cell) ∧
          List.Chain' (Adj 2) q ∧ ∀ k ∈ q, c1res.1 k.1 k.2 = 1) := by
  have hw : ∀ c, 0 < c1wm c := by
    intro c
    show (0 : WithTop ℚ) < ((1 : ℚ) : WithTop ℚ)
    rw [← WithTop.coe_zero, WithTop.coe_lt_coe]
    norm_num
  have hrun : c1run = some c1res := by with_unfolding_all rfl
  have hpath : ∃ p : List Cell, p.head? = some ((0, 0) : Cell) ∧
      p.getLast? = some ((1, 0) : Cell) ∧
      List.Chain' (fun u v => Adj 2 u v ∧
        edgeCost c1wm (fun _ _ => 0) (fun _ _ => 0) u v < ⊤) p := by
    refine ⟨[(0, 0), (1, 0)], rfl, rfl, List.chain'_cons.mpr
      ⟨⟨?_, ?_⟩, List.chain'_singleton _⟩⟩
    · show ((1, 0) : Cell) ∈ edgeNeighbors 2 0 0
      decide
    · show edgeCost c1wm (fun _ _ => 0) (fun _ _ => 0) (0, 0) (1, 0) < ⊤
      with_unfolding_all decide
  exact ⟨hrun, hw, by norm_num, by decide, hpath,
    generate_road_builds_path 2 c1wm (fun _ _ => 0) (fun _ _ => 0)
      (0, 0) (1, 0) 5 5 c1res hw (by norm_num) (by norm_num) (by decide)
      hpath hrun⟩
